import Mathlib

/-!
Verification of the worklist dataflow engine of `src/dataflow.py`.

The control-flow graph (CFG) is an external collaborator; we model its
read-only query interface as a structure of functions.  Node identifiers are
naturals, type tags and images are strings, fact sets are `Finset Nat`.

Python `dict`/`defaultdict(set)` values are modelled as total functions
`Nat → Finset Nat` defaulting to `∅`, together with explicit key sets
(`in_keys`, `out_keys`) recording which entries are actually present in the
dictionary: a `defaultdict` getitem or setitem inserts the key, and we mirror
each such access.  Python exceptions (IndexError on `xs[0]` of an empty list)
are modelled with `Option`.
-/

/-- The read-only CFG collaborator interface consumed by `dataflow.py`. -/
structure CFG where
  node_ids : List Nat
  get_type : Nat → String
  get_image : Nat → String
  get_children : Nat → List Nat
  get_parents : Nat → List Nat
  get_any_children : Nat → List Nat
  get_any_parents : Nat → List Nat
  get_var_scope : Nat → String
  get_var_id : Nat → String

/-- Boolean test for `p` being a prefix of `l` (used to model Python's
substring operator `in`). -/
def listPrefixOf : List Char → List Char → Bool
  | [], _ => true
  | _ :: _, [] => false
  | a :: as, b :: bs => a == b && listPrefixOf as bs

/-- Boolean test for `p` being a contiguous sublist of `l`. -/
def listInfixOf (p : List Char) : List Char → Bool
  | [] => listPrefixOf p []
  | c :: rest => listPrefixOf p (c :: rest) || listInfixOf p rest

/-- Model of Python's `pat in s` substring containment on strings. -/
def substrIn (pat s : String) : Bool := listInfixOf pat.data s.data

/-- `is_definition(cfg, nid)` from `src/dataflow.py` lines 8-23.
The Python builds the whole five-element list before `any` examines it, so
each index access is evaluated: `children[0]`, then
`children(children[0])[0]`, then `parents[0]`.  An empty list at any of these
accesses raises `IndexError`, modelled by `none`. -/
def is_definition (cfg : CFG) (nid : Nat) : Option Bool := do
  let c0 ← (cfg.get_children nid).head?
  let cc0 ← (cfg.get_children c0).head?
  let p0 ← (cfg.get_parents nid).head?
  return (cfg.get_type c0 == "ValueParameter" ||
    cfg.get_type cc0 == "OptValueParameter" ||
    (cfg.get_type c0 == "BinOP" && cfg.get_image c0 == "=") ||
    substrIn "MemberDeclaration" (cfg.get_type p0) ||
    cfg.get_type p0 == "Global")

/-- `yield_all_vars` from `src/dataflow.py` lines 26-29. -/
def yield_all_vars (cfg : CFG) : List Nat :=
  cfg.node_ids.filter (fun nid => cfg.get_type nid == "Variable")

/-- `yield_all_defs` from `src/dataflow.py` lines 32-35 (the run only
completes when the classifier returns, i.e. `is_definition = some _`). -/
def yield_all_defs (cfg : CFG) : List Nat :=
  (yield_all_vars cfg).filter (fun nid => is_definition cfg nid == some true)

/-- `yield_all_refs` from `src/dataflow.py` lines 38-41. -/
def yield_all_refs (cfg : CFG) : List Nat :=
  (yield_all_vars cfg).filter (fun nid => is_definition cfg nid == some false)

/-- The generator loops of `yield_all_defs`/`yield_all_refs` as Python runs
them: `is_definition` is called on every listed node in order, and the first
classification that raises `IndexError` aborts the enclosing call
(`build_defs` or `build_gen`), modelled by `none`; on success the nodes whose
classification equals `want` are kept. -/
def filter_classified (cfg : CFG) (want : Bool) : List Nat → Option (List Nat)
  | [] => some []
  | nid :: rest => do
    let b ← is_definition cfg nid
    let l ← filter_classified cfg want rest
    pure (if b = want then nid :: l else l)

/-- `yield_all_defs` with the exception propagated: `none` exactly when some
`Variable` node makes `is_definition` raise. -/
def yield_all_defsE (cfg : CFG) : Option (List Nat) :=
  filter_classified cfg true (yield_all_vars cfg)

/-- `yield_all_refs` with the exception propagated. -/
def yield_all_refsE (cfg : CFG) : Option (List Nat) :=
  filter_classified cfg false (yield_all_vars cfg)

/-- `get_key` from `src/dataflow.py` lines 44-45. -/
def get_key (cfg : CFG) (nid : Nat) : String × String :=
  (cfg.get_var_scope nid, cfg.get_var_id nid)

/-- `DataFlowAlgorithm.build_defs` (lines 62-67): group the definition nodes
by variable key. -/
def build_defs (cfg : CFG) : String × String → Finset Nat :=
  fun key => ((yield_all_defs cfg).filter (fun nid => get_key cfg nid == key)).toFinset

/-- `DataFlowAlgorithm.build_kill` (lines 73-79): for each generated node id
`g` of `gen[nid]`, union in `all_defs[key g] \ gen[nid]`.  A node with empty
gen set gets the defaultdict default `∅`. -/
def build_kill (cfg : CFG) (all_defs : String × String → Finset Nat)
    (gen : Nat → Finset Nat) : Nat → Finset Nat :=
  fun nid => (gen nid).biUnion (fun var_nid => all_defs (get_key cfg var_nid) \ gen nid)

/-- The engine's per-run mutable state: the two dataflow maps (as total
functions with default `∅`), the key sets actually present in the two
defaultdicts, the visited set, and the worklist.  The worklist is a stack:
Python appends at the end and pops from the end; we equivalently push with
`::` and pop the head. -/
structure DFState where
  in_dict : Nat → Finset Nat
  out_dict : Nat → Finset Nat
  in_keys : Finset Nat
  out_keys : Finset Nat
  visited : Finset Nat
  worklist : List Nat

/-- The fresh state built at the start of `DataFlowAlgorithm.__call__`
(lines 108-112). -/
def initState : DFState :=
  { in_dict := fun _ => ∅
    out_dict := fun _ => ∅
    in_keys := ∅
    out_keys := ∅
    visited := ∅
    worklist := [] }

/-- The abstract-method hook bundle of `DataFlowAlgorithm`.
`can_propagate` returns its Boolean together with the state, because
evaluating it touches the defaultdicts (inserting keys). -/
structure DFHooks where
  apply_flow_eq : DFState → Nat → DFState
  next_nodes : Nat → List Nat
  can_propagate : DFState → Nat → Nat → Bool × DFState
  propagate : DFState → Nat → Nat → DFState

/-- `worklist.append(next_nid); visited.add(next_nid)` from the driver. -/
def push (s : DFState) (nid : Nat) : DFState :=
  { s with worklist := nid :: s.worklist, visited := insert nid s.visited }

/-- Body of the `for next_nid in self.next_nodes(nid)` loop (lines 117-123):
by the short-circuit `or`, a not-yet-visited neighbor is propagated to and
pushed without evaluating `can_propagate`; a visited neighbor is propagated
to and pushed only if `can_propagate` holds (whose evaluation itself touches
the defaultdicts). -/
def process_child (h : DFHooks) (nid : Nat) (t : DFState) (next_nid : Nat) : DFState :=
  if next_nid ∈ t.visited then
    if (h.can_propagate t nid next_nid).1 then
      push (h.propagate (h.can_propagate t nid next_nid).2 nid next_nid) next_nid
    else (h.can_propagate t nid next_nid).2
  else
    push (h.propagate t nid next_nid) next_nid

/-- One iteration of the inner `while` loop of `__call__` (lines 115-123),
after the pop: apply the flow equation at `nid`, then walk the neighbors. -/
def process_node (h : DFHooks) (s : DFState) (nid : Nat) : DFState :=
  (h.next_nodes nid).foldl (process_child h nid) (h.apply_flow_eq s nid)

/-- The inner `while self.worklist` loop, with explicit fuel: pop the top of
the stack and process it, until the worklist empties (or fuel runs out;
termination is proved separately). -/
def drain (h : DFHooks) : Nat → DFState → DFState
  | 0, s => s
  | fuel + 1, s =>
    match s.worklist with
    | [] => s
    | nid :: rest => drain h fuel (process_node h { s with worklist := rest } nid)

/-- The outer `for _ in self.pre_loop_init()` loop of `__call__`
(lines 113-123): the generator seeds one boundary node, yields, and the inner
loop drains; then the generator resumes with the next boundary node. -/
def run_loop (h : DFHooks) (seedFn : DFState → Nat → DFState)
    (boundary : List Nat) (fuel : Nat) (s : DFState) : DFState :=
  boundary.foldl (fun t b => drain h fuel (seedFn t b)) s

namespace PossiblyReachingDefinitions

/-- `PossiblyReachingDefinitions.build_gen` (lines 129-133): singleton gen
set at every definition node, defaultdict default `∅` elsewhere. -/
def build_gen (cfg : CFG) : Nat → Finset Nat :=
  fun nid => if nid ∈ yield_all_defs cfg then {nid} else ∅

/-- `get_entry_node` (lines 142-146). -/
def get_entry_node (cfg : CFG) : List Nat :=
  cfg.node_ids.filter (fun nid => cfg.get_type nid == "Entry")

/-- `apply_flow_eq` (lines 148-151): `out[n] = gen[n] ∪ (in[n] \ kill[n])`.
Reading `in_dict[nid]` and writing `out_dict[nid]` inserts both keys. -/
def apply_flow_eq (gen kill : Nat → Finset Nat) (s : DFState) (nid : Nat) : DFState :=
  { s with
    out_dict := fun m => if m = nid then gen nid ∪ (s.in_dict nid \ kill nid) else s.out_dict m
    in_keys := insert nid s.in_keys
    out_keys := insert nid s.out_keys }

/-- `next_nodes` (lines 153-154): control-flow successors. -/
def next_nodes (cfg : CFG) (nid : Nat) : List Nat := cfg.get_any_children nid

/-- `can_propagate` (lines 156-157): `out[nid] - in[next] != set()`; the two
getitems insert the two keys. -/
def can_propagate (s : DFState) (nid next_nid : Nat) : Bool × DFState :=
  (decide (s.out_dict nid \ s.in_dict next_nid ≠ ∅),
   { s with out_keys := insert nid s.out_keys, in_keys := insert next_nid s.in_keys })

/-- `propagate` (lines 159-160): `in[next] |= out[nid]`. -/
def propagate (s : DFState) (nid next_nid : Nat) : DFState :=
  { s with
    in_dict := fun m => if m = next_nid then s.in_dict next_nid ∪ s.out_dict nid else s.in_dict m
    out_keys := insert nid s.out_keys
    in_keys := insert next_nid s.in_keys }

/-- One step of the `pre_loop_init` generator (lines 135-140): reset
`in[entry]` to `∅`, mark visited, push. -/
def pre_loop_init (s : DFState) (entry_nid : Nat) : DFState :=
  { s with
    in_dict := fun m => if m = entry_nid then ∅ else s.in_dict m
    in_keys := insert entry_nid s.in_keys
    visited := insert entry_nid s.visited
    worklist := entry_nid :: s.worklist }

/-- The hooks of the forward analysis, with gen/kill built as in
`__call__` lines 104-106. -/
def hooks (cfg : CFG) : DFHooks :=
  { apply_flow_eq := apply_flow_eq (build_gen cfg)
      (build_kill cfg (build_defs cfg) (build_gen cfg))
    next_nodes := next_nodes cfg
    can_propagate := can_propagate
    propagate := propagate }

/-- `PossiblyReachingDefinitions()(cfg)`: the whole `__call__`, returning the
final state (its `in_dict`/`out_dict` are the returned pair). -/
def call (cfg : CFG) (fuel : Nat) : DFState :=
  run_loop (hooks cfg) pre_loop_init (get_entry_node cfg) fuel initState

/-- `__call__` with the setup-phase exception propagated: `build_defs` and
`build_gen` both iterate `yield_all_defs`, so an `IndexError` raised by
`is_definition` on some `Variable` node aborts the call (`none`) before the
worklist loop ever runs. -/
def callE (cfg : CFG) (fuel : Nat) : Option DFState := do
  let _ ← yield_all_defsE cfg
  pure (call cfg fuel)

end PossiblyReachingDefinitions

namespace PossibleReachableReferences

/-- `PossibleReachableReferences.build_gen` (lines 164-168): singleton gen
set at every reference node. -/
def build_gen (cfg : CFG) : Nat → Finset Nat :=
  fun nid => if nid ∈ yield_all_refs cfg then {nid} else ∅

/-- `get_exit_node` (lines 177-181). -/
def get_exit_node (cfg : CFG) : List Nat :=
  cfg.node_ids.filter (fun nid => cfg.get_type nid == "Exit")

/-- `apply_flow_eq` (lines 183-186): `in[n] = gen[n] ∪ (out[n] \ kill[n])`. -/
def apply_flow_eq (gen kill : Nat → Finset Nat) (s : DFState) (nid : Nat) : DFState :=
  { s with
    in_dict := fun m => if m = nid then gen nid ∪ (s.out_dict nid \ kill nid) else s.in_dict m
    out_keys := insert nid s.out_keys
    in_keys := insert nid s.in_keys }

/-- `next_nodes` (lines 188-189): control-flow predecessors. -/
def next_nodes (cfg : CFG) (nid : Nat) : List Nat := cfg.get_any_parents nid

/-- `can_propagate` (lines 191-192): `in[nid] - out[next] != set()`. -/
def can_propagate (s : DFState) (nid next_nid : Nat) : Bool × DFState :=
  (decide (s.in_dict nid \ s.out_dict next_nid ≠ ∅),
   { s with in_keys := insert nid s.in_keys, out_keys := insert next_nid s.out_keys })

/-- `propagate` (lines 194-195): `out[next] |= in[nid]`. -/
def propagate (s : DFState) (nid next_nid : Nat) : DFState :=
  { s with
    out_dict := fun m => if m = next_nid then s.out_dict next_nid ∪ s.in_dict nid else s.out_dict m
    in_keys := insert nid s.in_keys
    out_keys := insert next_nid s.out_keys }

/-- One step of the `pre_loop_init` generator (lines 170-175): reset
`out[exit]` to `∅`, mark visited, push. -/
def pre_loop_init (s : DFState) (exit_nid : Nat) : DFState :=
  { s with
    out_dict := fun m => if m = exit_nid then ∅ else s.out_dict m
    out_keys := insert exit_nid s.out_keys
    visited := insert exit_nid s.visited
    worklist := exit_nid :: s.worklist }

/-- The hooks of the backward analysis. -/
def hooks (cfg : CFG) : DFHooks :=
  { apply_flow_eq := apply_flow_eq (build_gen cfg)
      (build_kill cfg (build_defs cfg) (build_gen cfg))
    next_nodes := next_nodes cfg
    can_propagate := can_propagate
    propagate := propagate }

/-- `PossibleReachableReferences()(cfg)`: the whole `__call__`. -/
def call (cfg : CFG) (fuel : Nat) : DFState :=
  run_loop (hooks cfg) pre_loop_init (get_exit_node cfg) fuel initState

/-- `__call__` with the setup-phase exception propagated: `build_defs`
iterates `yield_all_defs` and `build_gen` iterates `yield_all_refs`; an
`IndexError` raised by `is_definition` in either aborts the call (`none`)
before the worklist loop ever runs. -/
def callE (cfg : CFG) (fuel : Nat) : Option DFState := do
  let _ ← yield_all_defsE cfg
  let _ ← yield_all_refsE cfg
  pure (call cfg fuel)

end PossibleReachableReferences


/-- A CFG with two `Entry` nodes 1 and 2 and one definition node 3 of
variable `("g", "x")`, control-flow edges `1 → 3 → 2`.  Nodes 10, 11, 12 are
structural helper nodes making node 3 classify as a definition
(its child 10 is a `BinOP` with image `"="`). -/
def cfgA : CFG :=
  { node_ids := [1, 3, 2]
    get_type := fun n =>
      if n = 1 then "Entry" else if n = 2 then "Entry" else
      if n = 3 then "Variable" else if n = 10 then "BinOP" else ""
    get_image := fun n => if n = 10 then "=" else ""
    get_children := fun n => if n = 3 then [10] else if n = 10 then [11] else []
    get_parents := fun n => if n = 3 then [12] else []
    get_any_children := fun n => if n = 1 then [3] else if n = 3 then [2] else []
    get_any_parents := fun _ => []
    get_var_scope := fun _ => "g"
    get_var_id := fun _ => "x" }

/-- A CFG with one `Entry` node 1 and one disconnected definition node 2
(no control-flow edges at all). -/
def cfgB : CFG :=
  { node_ids := [1, 2]
    get_type := fun n =>
      if n = 1 then "Entry" else if n = 2 then "Variable" else
      if n = 10 then "BinOP" else ""
    get_image := fun n => if n = 10 then "=" else ""
    get_children := fun n => if n = 2 then [10] else if n = 10 then [11] else []
    get_parents := fun n => if n = 2 then [12] else []
    get_any_children := fun _ => []
    get_any_parents := fun _ => []
    get_var_scope := fun _ => "g"
    get_var_id := fun _ => "x" }

/-- A CFG with a single variable node 1 whose immediate child 2 is a
`ValueParameter` node; node 1 has a parent 4 and a grandchild 3, so the
classifier completes. -/
def cfgD : CFG :=
  { node_ids := [1]
    get_type := fun n => if n = 1 then "Variable" else if n = 2 then "ValueParameter" else ""
    get_image := fun _ => ""
    get_children := fun n => if n = 1 then [2] else if n = 2 then [3] else []
    get_parents := fun n => if n = 1 then [4] else []
    get_any_children := fun _ => []
    get_any_parents := fun _ => []
    get_var_scope := fun _ => "g"
    get_var_id := fun _ => "x" }

/-- A CFG whose variable node 1 has children (and grandchildren) but no
enclosing parent: the classifier's `get_parents(nid)[0]` access fails. -/
def cfgE : CFG :=
  { node_ids := [1]
    get_type := fun n => if n = 1 then "Variable" else ""
    get_image := fun _ => ""
    get_children := fun n => if n = 1 then [2] else if n = 2 then [3] else []
    get_parents := fun _ => []
    get_any_children := fun _ => []
    get_any_parents := fun _ => []
    get_var_scope := fun _ => "g"
    get_var_id := fun _ => "x" }

/-- A CFG with two definition nodes 1 and 2 of the same variable
`("g", "x")` (each is the left operand of an assignment `BinOP`). -/
def cfgF : CFG :=
  { node_ids := [1, 2]
    get_type := fun n =>
      if n = 1 then "Variable" else if n = 2 then "Variable" else
      if n = 10 then "BinOP" else if n = 11 then "BinOP" else ""
    get_image := fun n => if n = 10 then "=" else if n = 11 then "=" else ""
    get_children := fun n =>
      if n = 1 then [10] else if n = 2 then [11] else
      if n = 10 then [20] else if n = 11 then [21] else []
    get_parents := fun n => if n = 1 then [30] else if n = 2 then [31] else []
    get_any_children := fun _ => []
    get_any_parents := fun _ => []
    get_var_scope := fun _ => "g"
    get_var_id := fun _ => "x" }

/-- The intermediate state of the forward run on `cfgA`: the first `Entry`
node (1) has been seeded and its drain has converged; the second `Entry`
node (2) is not yet seeded.  At this point `in[2] = {3}`. -/
def midA : DFState :=
  drain (PossiblyReachingDefinitions.hooks cfgA) 10
    (PossiblyReachingDefinitions.pre_loop_init initState 1)

/-- A CFG with a single node that is neither an `Entry` nor an `Exit`
node. -/
def cfgC : CFG :=
  { node_ids := [1]
    get_type := fun _ => "X"
    get_image := fun _ => ""
    get_children := fun _ => []
    get_parents := fun _ => []
    get_any_children := fun _ => []
    get_any_parents := fun _ => []
    get_var_scope := fun _ => "g"
    get_var_id := fun _ => "x" }


/-- Behavioral specification of an analysis's hooks, in terms of abstract
projections of the state: `near` is the map merged into by `propagate`
(`in` for the forward analysis, `out` for the backward one) and `far` the
map assigned by `apply_flow_eq` (`out` forward, `in` backward); `nearK` and
`farK` are the corresponding defaultdict key sets.  Both concrete analyses
satisfy it definitionally. -/
structure HookSpec (h : DFHooks) (near far : DFState → Nat → Finset Nat)
    (nearK farK : DFState → Finset Nat) (gen kill : Nat → Finset Nat) : Prop where
  afe_near : ∀ s nid, near (h.apply_flow_eq s nid) = near s
  afe_far : ∀ s nid, far (h.apply_flow_eq s nid) =
    fun m => if m = nid then gen nid ∪ (near s nid \ kill nid) else far s m
  afe_visited : ∀ s nid, (h.apply_flow_eq s nid).visited = s.visited
  afe_worklist : ∀ s nid, (h.apply_flow_eq s nid).worklist = s.worklist
  afe_nearK : ∀ s nid, nearK (h.apply_flow_eq s nid) = insert nid (nearK s)
  afe_farK : ∀ s nid, farK (h.apply_flow_eq s nid) = insert nid (farK s)
  cp_fst : ∀ s nid next, (h.can_propagate s nid next).1 =
    decide (far s nid \ near s next ≠ ∅)
  cp_near : ∀ s nid next, near (h.can_propagate s nid next).2 = near s
  cp_far : ∀ s nid next, far (h.can_propagate s nid next).2 = far s
  cp_visited : ∀ s nid next, (h.can_propagate s nid next).2.visited = s.visited
  cp_worklist : ∀ s nid next, (h.can_propagate s nid next).2.worklist = s.worklist
  cp_nearK : ∀ s nid next, nearK (h.can_propagate s nid next).2 = insert next (nearK s)
  cp_farK : ∀ s nid next, farK (h.can_propagate s nid next).2 = insert nid (farK s)
  prop_near : ∀ s nid next, near (h.propagate s nid next) =
    fun m => if m = next then near s next ∪ far s nid else near s m
  prop_far : ∀ s nid next, far (h.propagate s nid next) = far s
  prop_visited : ∀ s nid next, (h.propagate s nid next).visited = s.visited
  prop_worklist : ∀ s nid next, (h.propagate s nid next).worklist = s.worklist
  prop_nearK : ∀ s nid next, nearK (h.propagate s nid next) = insert next (nearK s)
  prop_farK : ∀ s nid next, farK (h.propagate s nid next) = insert nid (farK s)
  push_near : ∀ s n, near (push s n) = near s
  push_far : ∀ s n, far (push s n) = far s
  push_nearK : ∀ s n, nearK (push s n) = nearK s
  push_farK : ∀ s n, farK (push s n) = farK s
  wl_near : ∀ s l, near { s with worklist := l } = near s
  wl_far : ∀ s l, far { s with worklist := l } = far s
  wl_nearK : ∀ s l, nearK { s with worklist := l } = nearK s
  wl_farK : ∀ s l, farK { s with worklist := l } = farK s

/-- Behavioral specification of one `pre_loop_init` seeding step. -/
structure SeedSpec (seedFn : DFState → Nat → DFState)
    (near far : DFState → Nat → Finset Nat)
    (nearK farK : DFState → Finset Nat) : Prop where
  near_eq : ∀ s b, near (seedFn s b) = fun m => if m = b then ∅ else near s m
  far_eq : ∀ s b, far (seedFn s b) = far s
  visited_eq : ∀ s b, (seedFn s b).visited = insert b s.visited
  worklist_eq : ∀ s b, (seedFn s b).worklist = b :: s.worklist
  nearK_eq : ∀ s b, nearK (seedFn s b) = insert b (nearK s)
  farK_eq : ∀ s b, farK (seedFn s b) = farK s

/-- The worklist invariant behind fixpoint consistency: every visited node is
either still pending on the worklist or satisfies its local flow equation. -/
def FixInv (near far : DFState → Nat → Finset Nat) (gen kill : Nat → Finset Nat)
    (s : DFState) : Prop :=
  ∀ m ∈ s.visited, m ∈ s.worklist ∨ far s m = gen m ∪ (near s m \ kill m)

/-- Within a single drain the far map stays below the flow-equation bound;
this is what makes the far-map reassignment of `apply_flow_eq` monotone. -/
def SubInv (near far : DFState → Nat → Finset Nat) (gen kill : Nat → Finset Nat)
    (s : DFState) : Prop :=
  ∀ m, far s m ⊆ gen m ∪ (near s m \ kill m)

/-- The defaultdict bookkeeping invariant: every key present in either map
belongs to a visited node, the worklist holds only visited nodes, and a node
without an entry still has the default value `∅`. -/
def KInv (near far : DFState → Nat → Finset Nat) (nearK farK : DFState → Finset Nat)
    (s : DFState) : Prop :=
  nearK s ⊆ s.visited ∧ farK s ⊆ s.visited ∧ (∀ x ∈ s.worklist, x ∈ s.visited) ∧
  (∀ n, n ∉ nearK s → near s n = ∅) ∧ (∀ n, n ∉ farK s → far s n = ∅)

/-- States whose worklist elements and map values stay inside the finite
node-id universe `V`. -/
def Vinv (V : Finset Nat) (near far : DFState → Nat → Finset Nat) (s : DFState) : Prop :=
  (∀ x ∈ s.worklist, x ∈ V) ∧ (∀ n, near s n ⊆ V) ∧ (∀ n, far s n ⊆ V)

/-- Termination measure of the inner worklist loop: pending pops, plus twice
the number of not-yet-visited universe nodes, plus twice the total deficit of
the near map below the universe. -/
def engineMeasure (V : Finset Nat) (near : DFState → Nat → Finset Nat) (s : DFState) : Nat :=
  s.worklist.length + 2 * (V.card - (s.visited ∩ V).card)
    + 2 * (V.sum fun n => V.card - (near s n).card)

/-- One nondeterministic iteration of the inner `while` loop: some pending
node is removed from an arbitrary worklist position (modelling a permuted
processing order, e.g. FIFO instead of the implemented LIFO) and
processed. -/
inductive PopStep (h : DFHooks) : DFState → DFState → Prop
  | pop (s : DFState) (l1 l2 : List Nat) (nid : Nat) :
      s.worklist = l1 ++ nid :: l2 →
      PopStep h s (process_node h { s with worklist := l1 ++ l2 } nid)

/-- A drain under an arbitrary pop schedule, recording the set of popped
nodes. -/
inductive DrainT (h : DFHooks) : DFState → DFState → Finset Nat → Prop
  | refl (s : DFState) : DrainT h s s ∅
  | step (s t : DFState) (P : Finset Nat) (l1 l2 : List Nat) (nid : Nat) :
      s.worklist = l1 ++ nid :: l2 →
      DrainT h (process_node h { s with worklist := l1 ++ l2 } nid) t P →
      DrainT h s t (insert nid P)

/-- Every pending worklist node has been visited. -/
def WlVis (s : DFState) : Prop := ∀ x ∈ s.worklist, x ∈ s.visited

/-- The simulation invariant: along a drain of arbitrary pop order started
from a state agreeing with `σ`, the near map stays between `σ`'s and the
reference terminal `T`'s values, visited nodes stay inside `T`'s, and every
pending node is one the reference run popped. -/
def SimInv (near : DFState → Nat → Finset Nat) (σ T : DFState) (P : Finset Nat)
    (u : DFState) : Prop :=
  (∀ m, near σ m ⊆ near u m) ∧ σ.visited ⊆ u.visited ∧
  (∀ x ∈ u.worklist, x ∈ P) ∧ (∀ m, near u m ⊆ near T m) ∧ u.visited ⊆ T.visited

/-- The whole run with a nondeterministic pop schedule: each boundary node
is seeded in order and drained to an empty worklist under an arbitrary
sequence of pops. -/
inductive RunRel (h : DFHooks) (seedFn : DFState → Nat → DFState) :
    List Nat → DFState → DFState → Prop
  | nil (s : DFState) : RunRel h seedFn [] s s
  | cons (b : Nat) (bs : List Nat) (s t u : DFState) (P : Finset Nat) :
      DrainT h (seedFn s b) t P → t.worklist = [] →
      RunRel h seedFn bs t u → RunRel h seedFn (b :: bs) s u

theorem foldl_preserve_mem {α β : Type} (f : β → α → β) (P : β → Prop) (S : α → Prop)
    (H : ∀ t a, S a → P t → P (f t a)) :
    ∀ l : List α, (∀ a ∈ l, S a) → ∀ t, P t → P (l.foldl f t) := by
  intro l
  induction l with
  | nil => intro _ t ht; simpa using ht
  | cons a l ih =>
    intro hS t ht
    simp only [List.foldl_cons]
    exact ih (fun x hx => hS x (List.mem_cons_of_mem _ hx)) _
      (H t a (hS a (List.mem_cons_self _ _)) ht)

theorem foldl_preserve {α β : Type} (f : β → α → β) (P : β → Prop)
    (H : ∀ t a, P t → P (f t a)) :
    ∀ l : List α, ∀ t, P t → P (l.foldl f t) := by
  intro l t ht
  exact foldl_preserve_mem f P (fun _ => True) (fun t a _ hp => H t a hp) l
    (fun _ _ => trivial) t ht

theorem drain_nil (h : DFHooks) (fuel : Nat) (s : DFState) (hw : s.worklist = []) :
    drain h fuel s = s := by
  cases fuel with
  | zero => rfl
  | succ fuel => simp [drain, hw]

theorem drain_cons (h : DFHooks) (fuel : Nat) (s : DFState) (nid : Nat) (rest : List Nat)
    (hw : s.worklist = nid :: rest) :
    drain h (fuel + 1) s = drain h fuel (process_node h { s with worklist := rest } nid) := by
  simp [drain, hw]

theorem drain_add (h : DFHooks) (a b : Nat) :
    ∀ s : DFState, drain h (a + b) s = drain h b (drain h a s) := by
  induction a with
  | zero => intro s; rw [Nat.zero_add]; rfl
  | succ a ih =>
    intro s
    cases hw : s.worklist with
    | nil => rw [drain_nil h (a + 1 + b) s hw, drain_nil h (a + 1) s hw, drain_nil h b s hw]
    | cons nid rest =>
      have harr : a + 1 + b = (a + b) + 1 := by omega
      rw [harr, drain_cons h (a + b) s nid rest hw, drain_cons h a s nid rest hw, ih]

theorem drain_stable (h : DFHooks) (k f : Nat) (s : DFState)
    (hk : (drain h k s).worklist = []) (hf : k ≤ f) :
    drain h f s = drain h k s := by
  obtain ⟨d, rfl⟩ := Nat.exists_eq_add_of_le hf
  rw [drain_add h k d s, drain_nil h d _ hk]

theorem run_loop_append (h : DFHooks) (seedFn : DFState → Nat → DFState)
    (l₁ l₂ : List Nat) (fuel : Nat) (s : DFState) :
    run_loop h seedFn (l₁ ++ l₂) fuel s =
      run_loop h seedFn l₂ fuel (run_loop h seedFn l₁ fuel s) := by
  simp [run_loop, List.foldl_append]

theorem push_visited (s : DFState) (n : Nat) : (push s n).visited = insert n s.visited := rfl

theorem push_worklist (s : DFState) (n : Nat) : (push s n).worklist = n :: s.worklist := rfl

section FixpointInvariant

variable {h : DFHooks} {near far : DFState → Nat → Finset Nat}
variable {nearK farK : DFState → Finset Nat} {gen kill : Nat → Finset Nat}
variable {seedFn : DFState → Nat → DFState}

theorem fixinv_prop_push
    (hs : HookSpec h near far nearK farK gen kill) (nid a : Nat)
    (u : DFState) (hu : FixInv near far gen kill u) :
    FixInv near far gen kill (push (h.propagate u nid a) a) := by
  intro m hm
  rw [push_visited, hs.prop_visited] at hm
  rw [push_worklist, hs.prop_worklist, hs.push_far, hs.prop_far, hs.push_near, hs.prop_near]
  by_cases hma : m = a
  · exact Or.inl (by simp [hma])
  · rcases Finset.mem_insert.mp hm with rfl | hm
    · exact absurd rfl hma
    · rcases hu m hm with hwl | heq
      · exact Or.inl (List.mem_cons_of_mem _ hwl)
      · exact Or.inr (by simpa [hma] using heq)

theorem fixinv_process_child
    (hs : HookSpec h near far nearK farK gen kill) (nid : Nat)
    (t : DFState) (a : Nat) (ht : FixInv near far gen kill t) :
    FixInv near far gen kill (process_child h nid t a) := by
  unfold process_child
  by_cases hv : a ∈ t.visited
  · rw [if_pos hv]
    cases hb : (h.can_propagate t nid a).1 with
    | true =>
      rw [if_pos rfl]
      refine fixinv_prop_push hs nid a _ ?_
      intro m hm
      rw [hs.cp_visited] at hm
      rw [hs.cp_worklist, hs.cp_far, hs.cp_near]
      exact ht m hm
    | false =>
      rw [if_neg (by simp)]
      intro m hm
      rw [hs.cp_visited] at hm
      rw [hs.cp_worklist, hs.cp_far, hs.cp_near]
      exact ht m hm
  · rw [if_neg hv]
    exact fixinv_prop_push hs nid a t ht

theorem fixinv_process_node
    (hs : HookSpec h near far nearK farK gen kill) (s : DFState) (nid : Nat)
    (rest : List Nat) (hw : s.worklist = nid :: rest)
    (hP : FixInv near far gen kill s) :
    FixInv near far gen kill (process_node h { s with worklist := rest } nid) := by
  unfold process_node
  refine foldl_preserve (process_child h nid) (FixInv near far gen kill)
    (fun t a hp => fixinv_process_child hs nid t a hp) _ _ ?_
  intro m hm
  rw [hs.afe_visited] at hm
  rw [hs.afe_worklist]
  simp only [hs.afe_far, hs.afe_near, hs.wl_near, hs.wl_far]
  by_cases hmn : m = nid
  · exact Or.inr (by simp [hmn])
  · rcases hP m hm with hwl | heq
    · rw [hw] at hwl
      rcases List.mem_cons.mp hwl with rfl | hwl
      · exact absurd rfl hmn
      · exact Or.inl hwl
    · exact Or.inr (by simpa [hmn] using heq)

theorem fixinv_drain
    (hs : HookSpec h near far nearK farK gen kill) (fuel : Nat) :
    ∀ s, FixInv near far gen kill s → FixInv near far gen kill (drain h fuel s) := by
  induction fuel with
  | zero => intro s hP; exact hP
  | succ fuel ih =>
    intro s hP
    cases hw : s.worklist with
    | nil => rw [drain_nil h _ s hw]; exact hP
    | cons nid rest =>
      rw [drain_cons h fuel s nid rest hw]
      exact ih _ (fixinv_process_node hs s nid rest hw hP)

theorem fixinv_seed
    (ss : SeedSpec seedFn near far nearK farK) (s : DFState) (b : Nat)
    (hP : FixInv near far gen kill s) :
    FixInv near far gen kill (seedFn s b) := by
  intro m hm
  rw [ss.visited_eq] at hm
  rw [ss.worklist_eq, ss.far_eq, ss.near_eq]
  by_cases hmb : m = b
  · exact Or.inl (by simp [hmb])
  · rcases Finset.mem_insert.mp hm with rfl | hm
    · exact absurd rfl hmb
    · rcases hP m hm with hwl | heq
      · exact Or.inl (List.mem_cons_of_mem _ hwl)
      · exact Or.inr (by simpa [hmb] using heq)

theorem fixinv_initState : FixInv near far gen kill initState := by
  intro m hm
  simp [initState] at hm

theorem fixinv_run
    (hs : HookSpec h near far nearK farK gen kill)
    (ss : SeedSpec seedFn near far nearK farK)
    (boundary : List Nat) (fuel : Nat) :
    FixInv near far gen kill (run_loop h seedFn boundary fuel initState) := by
  unfold run_loop
  refine foldl_preserve _ (FixInv near far gen kill)
    (fun t b hp => fixinv_drain hs fuel _ (fixinv_seed ss t b hp)) _ _ ?_
  exact fixinv_initState

end FixpointInvariant

/-- The forward analysis satisfies the hook specification with `near = in`,
`far = out`: every field holds by definitional unfolding. -/
theorem prd_hookSpec (cfg : CFG) :
    HookSpec (PossiblyReachingDefinitions.hooks cfg)
      (fun s => s.in_dict) (fun s => s.out_dict)
      (fun s => s.in_keys) (fun s => s.out_keys)
      (PossiblyReachingDefinitions.build_gen cfg)
      (build_kill cfg (build_defs cfg) (PossiblyReachingDefinitions.build_gen cfg)) where
  afe_near := fun _ _ => rfl
  afe_far := fun _ _ => rfl
  afe_visited := fun _ _ => rfl
  afe_worklist := fun _ _ => rfl
  afe_nearK := fun _ _ => rfl
  afe_farK := fun _ _ => rfl
  cp_fst := fun _ _ _ => rfl
  cp_near := fun _ _ _ => rfl
  cp_far := fun _ _ _ => rfl
  cp_visited := fun _ _ _ => rfl
  cp_worklist := fun _ _ _ => rfl
  cp_nearK := fun _ _ _ => rfl
  cp_farK := fun _ _ _ => rfl
  prop_near := fun _ _ _ => rfl
  prop_far := fun _ _ _ => rfl
  prop_visited := fun _ _ _ => rfl
  prop_worklist := fun _ _ _ => rfl
  prop_nearK := fun _ _ _ => rfl
  prop_farK := fun _ _ _ => rfl
  push_near := fun _ _ => rfl
  push_far := fun _ _ => rfl
  push_nearK := fun _ _ => rfl
  push_farK := fun _ _ => rfl
  wl_near := fun _ _ => rfl
  wl_far := fun _ _ => rfl
  wl_nearK := fun _ _ => rfl
  wl_farK := fun _ _ => rfl

/-- The backward analysis satisfies the hook specification with the mirror
projections `near = out`, `far = in`. -/
theorem prr_hookSpec (cfg : CFG) :
    HookSpec (PossibleReachableReferences.hooks cfg)
      (fun s => s.out_dict) (fun s => s.in_dict)
      (fun s => s.out_keys) (fun s => s.in_keys)
      (PossibleReachableReferences.build_gen cfg)
      (build_kill cfg (build_defs cfg) (PossibleReachableReferences.build_gen cfg)) where
  afe_near := fun _ _ => rfl
  afe_far := fun _ _ => rfl
  afe_visited := fun _ _ => rfl
  afe_worklist := fun _ _ => rfl
  afe_nearK := fun _ _ => rfl
  afe_farK := fun _ _ => rfl
  cp_fst := fun _ _ _ => rfl
  cp_near := fun _ _ _ => rfl
  cp_far := fun _ _ _ => rfl
  cp_visited := fun _ _ _ => rfl
  cp_worklist := fun _ _ _ => rfl
  cp_nearK := fun _ _ _ => rfl
  cp_farK := fun _ _ _ => rfl
  prop_near := fun _ _ _ => rfl
  prop_far := fun _ _ _ => rfl
  prop_visited := fun _ _ _ => rfl
  prop_worklist := fun _ _ _ => rfl
  prop_nearK := fun _ _ _ => rfl
  prop_farK := fun _ _ _ => rfl
  push_near := fun _ _ => rfl
  push_far := fun _ _ => rfl
  push_nearK := fun _ _ => rfl
  push_farK := fun _ _ => rfl
  wl_near := fun _ _ => rfl
  wl_far := fun _ _ => rfl
  wl_nearK := fun _ _ => rfl
  wl_farK := fun _ _ => rfl

/-- The forward seeding step satisfies the seed specification. -/
theorem prd_seedSpec :
    SeedSpec PossiblyReachingDefinitions.pre_loop_init
      (fun s => s.in_dict) (fun s => s.out_dict)
      (fun s => s.in_keys) (fun s => s.out_keys) where
  near_eq := fun _ _ => rfl
  far_eq := fun _ _ => rfl
  visited_eq := fun _ _ => rfl
  worklist_eq := fun _ _ => rfl
  nearK_eq := fun _ _ => rfl
  farK_eq := fun _ _ => rfl

/-- The backward seeding step satisfies the seed specification. -/
theorem prr_seedSpec :
    SeedSpec PossibleReachableReferences.pre_loop_init
      (fun s => s.out_dict) (fun s => s.in_dict)
      (fun s => s.out_keys) (fun s => s.in_keys) where
  near_eq := fun _ _ => rfl
  far_eq := fun _ _ => rfl
  visited_eq := fun _ _ => rfl
  worklist_eq := fun _ _ => rfl
  nearK_eq := fun _ _ => rfl
  farK_eq := fun _ _ => rfl

/-- Claim C1, counterexample: on `cfgB` the forward analysis terminates (its
worklist is empty), yet at node 2 — a definition node of the CFG that is
unreachable from the entry — the flow equation
`out[n] = gen[n] ∪ (in[n] \ kill[n])` fails: `out[2] = ∅` but `gen[2] = {2}`.
So the flow equation does not hold at every node of the CFG. -/
theorem claim_C1_counterexample :
    (PossiblyReachingDefinitions.call cfgB 10).worklist = [] ∧
    2 ∈ cfgB.node_ids ∧
    (PossiblyReachingDefinitions.call cfgB 10).out_dict 2 ≠
      PossiblyReachingDefinitions.build_gen cfgB 2 ∪
        ((PossiblyReachingDefinitions.call cfgB 10).in_dict 2 \
          build_kill cfgB (build_defs cfgB) (PossiblyReachingDefinitions.build_gen cfgB) 2) := by
  decide

/-- Claim C1 (amended): when an invocation of either concrete analysis
terminates, the flow equation holds at every node the run visited —
forward: `out[n] = gen[n] ∪ (in[n] \ kill[n])`, backward:
`in[n] = gen[n] ∪ (out[n] \ kill[n])`.  At never-visited nodes (e.g. nodes
unreachable from the boundary) the equation can fail. -/
theorem claim_C1_amended (cfg : CFG) (fuel : Nat) :
    ((PossiblyReachingDefinitions.call cfg fuel).worklist = [] →
      ∀ m ∈ (PossiblyReachingDefinitions.call cfg fuel).visited,
        (PossiblyReachingDefinitions.call cfg fuel).out_dict m =
          PossiblyReachingDefinitions.build_gen cfg m ∪
            ((PossiblyReachingDefinitions.call cfg fuel).in_dict m \
              build_kill cfg (build_defs cfg) (PossiblyReachingDefinitions.build_gen cfg) m)) ∧
    ((PossibleReachableReferences.call cfg fuel).worklist = [] →
      ∀ m ∈ (PossibleReachableReferences.call cfg fuel).visited,
        (PossibleReachableReferences.call cfg fuel).in_dict m =
          PossibleReachableReferences.build_gen cfg m ∪
            ((PossibleReachableReferences.call cfg fuel).out_dict m \
              build_kill cfg (build_defs cfg) (PossibleReachableReferences.build_gen cfg) m)) := by
  constructor
  · intro hw m hm
    have hfix : FixInv (fun s => s.in_dict) (fun s => s.out_dict)
        (PossiblyReachingDefinitions.build_gen cfg)
        (build_kill cfg (build_defs cfg) (PossiblyReachingDefinitions.build_gen cfg))
        (PossiblyReachingDefinitions.call cfg fuel) :=
      fixinv_run (prd_hookSpec cfg) prd_seedSpec
        (PossiblyReachingDefinitions.get_entry_node cfg) fuel
    rcases hfix m hm with hwl | heq
    · rw [hw] at hwl; cases hwl
    · exact heq
  · intro hw m hm
    have hfix : FixInv (fun s => s.out_dict) (fun s => s.in_dict)
        (PossibleReachableReferences.build_gen cfg)
        (build_kill cfg (build_defs cfg) (PossibleReachableReferences.build_gen cfg))
        (PossibleReachableReferences.call cfg fuel) :=
      fixinv_run (prr_hookSpec cfg) prr_seedSpec
        (PossibleReachableReferences.get_exit_node cfg) fuel
    rcases hfix m hm with hwl | heq
    · rw [hw] at hwl; cases hwl
    · exact heq

/-- Witness for the amended claim C1: on the concrete CFG `cfgB` with fuel
10 the forward run terminates, node 1 is visited, and the flow equation
holds there. -/
theorem claim_C1_amended_witness :
    (PossiblyReachingDefinitions.call cfgB 10).worklist = [] ∧
    (PossiblyReachingDefinitions.call cfgB 10).out_dict 1 =
      PossiblyReachingDefinitions.build_gen cfgB 1 ∪
        ((PossiblyReachingDefinitions.call cfgB 10).in_dict 1 \
          build_kill cfgB (build_defs cfgB) (PossiblyReachingDefinitions.build_gen cfgB) 1) :=
  ⟨by decide, (claim_C1_amended cfgB 10).1 (by decide) 1 (by decide)⟩

/-- Claim C2: `build_kill` maps every node `n` to the union, over the
generated node ids `g` of `gen[n]`, of `all_defs[key g] \ gen[n]`; a node
with empty gen set has an empty kill set; and in the forward analysis, for
any definition node `d` every other definition node of the same variable key
lies in `kill[d]`, while `d` itself never does. -/
theorem claim_C2 (cfg : CFG) :
    (∀ nid, build_kill cfg (build_defs cfg) (PossiblyReachingDefinitions.build_gen cfg) nid =
      (PossiblyReachingDefinitions.build_gen cfg nid).biUnion
        (fun g => build_defs cfg (get_key cfg g) \
          PossiblyReachingDefinitions.build_gen cfg nid)) ∧
    (∀ nid, PossiblyReachingDefinitions.build_gen cfg nid = ∅ →
      build_kill cfg (build_defs cfg) (PossiblyReachingDefinitions.build_gen cfg) nid = ∅) ∧
    (∀ d, d ∈ yield_all_defs cfg →
      (∀ e, e ∈ yield_all_defs cfg → get_key cfg e = get_key cfg d → e ≠ d →
        e ∈ build_kill cfg (build_defs cfg) (PossiblyReachingDefinitions.build_gen cfg) d) ∧
      d ∉ build_kill cfg (build_defs cfg) (PossiblyReachingDefinitions.build_gen cfg) d) := by
  refine ⟨fun nid => rfl, fun nid h => by simp [build_kill, h], ?_⟩
  intro d hd
  have hgen : PossiblyReachingDefinitions.build_gen cfg d = {d} := by
    simp [PossiblyReachingDefinitions.build_gen, hd]
  have hkill : build_kill cfg (build_defs cfg) (PossiblyReachingDefinitions.build_gen cfg) d =
      build_defs cfg (get_key cfg d) \ {d} := by
    simp [build_kill, hgen]
  constructor
  · intro e he hkey hne
    rw [hkill, Finset.mem_sdiff]
    refine ⟨?_, by simp [hne]⟩
    simp [build_defs, List.mem_filter, he, hkey]
  · rw [hkill, Finset.mem_sdiff]
    intro hcon
    exact hcon.2 (Finset.mem_singleton_self d)

/-- Witness for claim C2 on `cfgF`: definition node 2 of the same variable
appears in `kill[1]`, and node 1 does not appear in its own kill set. -/
theorem claim_C2_witness :
    2 ∈ build_kill cfgF (build_defs cfgF) (PossiblyReachingDefinitions.build_gen cfgF) 1 ∧
    1 ∉ build_kill cfgF (build_defs cfgF) (PossiblyReachingDefinitions.build_gen cfgF) 1 :=
  ⟨((claim_C2 cfgF).2.2 1 (by decide)).1 2 (by decide) (by decide) (by decide),
   ((claim_C2 cfgF).2.2 1 (by decide)).2⟩

/-- Claim C3: whenever the classifier completes on a variable node (all
three structural accesses succeed, with first child `c0`, first grandchild
`cc0` and first parent `p0`), it returns true exactly when one of the four
spec conditions holds: a parameter child (plain `ValueParameter` child or
`OptValueParameter` wrapper below it), an assignment-shaped `BinOP` child
with image `"="`, a parent tag containing `"MemberDeclaration"`, or a parent
tag equal to `"Global"`. -/
theorem claim_C3 (cfg : CFG) (nid c0 cc0 p0 : Nat) (l1 l2 l3 : List Nat)
    (_hvar : cfg.get_type nid = "Variable")
    (hc : cfg.get_children nid = c0 :: l1)
    (hcc : cfg.get_children c0 = cc0 :: l2)
    (hp : cfg.get_parents nid = p0 :: l3) :
    is_definition cfg nid = some true ↔
      ((cfg.get_type c0 = "ValueParameter" ∨ cfg.get_type cc0 = "OptValueParameter") ∨
       (cfg.get_type c0 = "BinOP" ∧ cfg.get_image c0 = "=") ∨
       substrIn "MemberDeclaration" (cfg.get_type p0) = true ∨
       cfg.get_type p0 = "Global") := by
  simp only [is_definition, hc, hcc, hp, List.head?_cons, Option.bind_eq_bind,
    Option.pure_def, Option.some_bind, Option.some.injEq, Bool.or_eq_true,
    Bool.and_eq_true, beq_iff_eq]
  tauto

/-- Witness for claim C3 on `cfgD`: node 1's child is a `ValueParameter`,
so it is classified as a definition. -/
theorem claim_C3_witness : is_definition cfgD 1 = some true :=
  (claim_C3 cfgD 1 2 3 4 [] [] [] (by decide) (by decide) (by decide) (by decide)).mpr
    (Or.inl (Or.inl (by decide)))

/-- Claim C6, counterexample: on `cfgE` the variable node 1 has no enclosing
parent; `is_definition` raises (modelled `none`) instead of returning
`False`. -/
theorem claim_C6_counterexample :
    cfgE.get_parents 1 = [] ∧ is_definition cfgE 1 = none ∧
    is_definition cfgE 1 ≠ some false := by decide

/-- Claim C6 (amended): `is_definition` applied to a variable node lacking
an enclosing parent, or lacking the expected child, does not return at all:
the eager list indexing raises an IndexError (modelled `none`).  The
classifier is not defensive. -/
theorem claim_C6_amended (cfg : CFG) (nid : Nat)
    (h : cfg.get_parents nid = [] ∨ cfg.get_children nid = []) :
    is_definition cfg nid = none := by
  rcases h with hp | hc
  · cases hc : cfg.get_children nid with
    | nil => simp [is_definition, hc]
    | cons c0 l1 =>
      cases hcc : cfg.get_children c0 with
      | nil => simp [is_definition, hc, hcc]
      | cons cc0 l2 => simp [is_definition, hc, hcc, hp]
  · simp [is_definition, hc]

/-- Witness for the amended claim C6 at the concrete input `cfgE`, node 1. -/
theorem claim_C6_amended_witness : is_definition cfgE 1 = none :=
  claim_C6_amended cfgE 1 (Or.inl (by decide))

theorem filter_classified_isSome (cfg : CFG) (want : Bool) :
    ∀ l : List Nat, (∀ n ∈ l, is_definition cfg n ≠ none) →
    ∃ r, filter_classified cfg want l = some r := by
  intro l
  induction l with
  | nil => exact fun _ => ⟨[], rfl⟩
  | cons nid rest ih =>
    intro hl
    obtain ⟨b, hb⟩ :=
      Option.ne_none_iff_exists'.mp (hl nid (List.mem_cons_self nid rest))
    obtain ⟨r, hr⟩ := ih (fun n hn => hl n (List.mem_cons_of_mem nid hn))
    exact ⟨if b = want then nid :: r else r,
      by simp [filter_classified, hb, hr]⟩

/-- Claim C7, original statement, refuted: on `cfgE` — a CFG with no
`Entry`-typed and no `Exit`-typed node whose `Variable` node has no parent —
`__call__` raises `IndexError` inside `build_defs` (modelled `none`) instead
of returning all-empty maps as valid output. -/
theorem claim_C7_counterexample :
    (∀ n ∈ cfgE.node_ids, cfgE.get_type n ≠ "Entry") ∧
    (∀ n ∈ cfgE.node_ids, cfgE.get_type n ≠ "Exit") ∧
    PossiblyReachingDefinitions.callE cfgE 10 = none ∧
    PossibleReachableReferences.callE cfgE 10 = none :=
  ⟨by decide, by decide, rfl, rfl⟩

/-- Amended claim C7: when the setup phase completes — `is_definition`
returns on every `Variable` node — a CFG with no `Entry`-typed node gives a
forward `__call__` that returns valid output (`some` state, not an error)
whose `pre_loop_init` never seeded the worklist and whose `in` and `out`
maps are empty everywhere; symmetrically for the backward analysis and
`Exit`-typed nodes.  Without the proviso the call can raise instead. -/
theorem claim_C7_amended (cfg : CFG) (fuel : Nat)
    (hsetup : ∀ n ∈ yield_all_vars cfg, is_definition cfg n ≠ none) :
    ((∀ n ∈ cfg.node_ids, cfg.get_type n ≠ "Entry") →
      PossiblyReachingDefinitions.get_entry_node cfg = [] ∧
      PossiblyReachingDefinitions.callE cfg fuel =
        some (PossiblyReachingDefinitions.call cfg fuel) ∧
      ∀ n, (PossiblyReachingDefinitions.call cfg fuel).in_dict n = ∅ ∧
        (PossiblyReachingDefinitions.call cfg fuel).out_dict n = ∅) ∧
    ((∀ n ∈ cfg.node_ids, cfg.get_type n ≠ "Exit") →
      PossibleReachableReferences.get_exit_node cfg = [] ∧
      PossibleReachableReferences.callE cfg fuel =
        some (PossibleReachableReferences.call cfg fuel) ∧
      ∀ n, (PossibleReachableReferences.call cfg fuel).in_dict n = ∅ ∧
        (PossibleReachableReferences.call cfg fuel).out_dict n = ∅) := by
  obtain ⟨rd, hrd⟩ :=
    filter_classified_isSome cfg true (yield_all_vars cfg) hsetup
  obtain ⟨rr, hrr⟩ :=
    filter_classified_isSome cfg false (yield_all_vars cfg) hsetup
  constructor
  · intro hno
    have hb : PossiblyReachingDefinitions.get_entry_node cfg = [] := by
      unfold PossiblyReachingDefinitions.get_entry_node
      rw [List.filter_eq_nil_iff]
      intro n hn
      simpa using hno n hn
    refine ⟨hb, ?_, fun n => ?_⟩
    · unfold PossiblyReachingDefinitions.callE yield_all_defsE
      rw [hrd]
      rfl
    · unfold PossiblyReachingDefinitions.call
      rw [hb]
      exact ⟨rfl, rfl⟩
  · intro hno
    have hb : PossibleReachableReferences.get_exit_node cfg = [] := by
      unfold PossibleReachableReferences.get_exit_node
      rw [List.filter_eq_nil_iff]
      intro n hn
      simpa using hno n hn
    refine ⟨hb, ?_, fun n => ?_⟩
    · unfold PossibleReachableReferences.callE yield_all_defsE yield_all_refsE
      rw [hrd, hrr]
      rfl
    · unfold PossibleReachableReferences.call
      rw [hb]
      exact ⟨rfl, rfl⟩

/-- Witness for the amended claim C7 on `cfgC` (no `Entry`, no `Exit` and no
`Variable` node, so the setup phase completes): both analyses return a valid
state whose maps are empty, e.g. at node 1. -/
theorem claim_C7_amended_witness :
    (PossiblyReachingDefinitions.callE cfgC 10 =
      some (PossiblyReachingDefinitions.call cfgC 10) ∧
     (PossiblyReachingDefinitions.call cfgC 10).in_dict 1 = ∅ ∧
     (PossiblyReachingDefinitions.call cfgC 10).out_dict 1 = ∅) ∧
    (PossibleReachableReferences.callE cfgC 10 =
      some (PossibleReachableReferences.call cfgC 10) ∧
     (PossibleReachableReferences.call cfgC 10).in_dict 1 = ∅ ∧
     (PossibleReachableReferences.call cfgC 10).out_dict 1 = ∅) :=
  ⟨⟨((claim_C7_amended cfgC 10 (by decide)).1 (by decide)).2.1,
    (((claim_C7_amended cfgC 10 (by decide)).1 (by decide)).2.2 1).1,
    (((claim_C7_amended cfgC 10 (by decide)).1 (by decide)).2.2 1).2⟩,
   ⟨((claim_C7_amended cfgC 10 (by decide)).2 (by decide)).2.1,
    (((claim_C7_amended cfgC 10 (by decide)).2 (by decide)).2.2 1).1,
    (((claim_C7_amended cfgC 10 (by decide)).2 (by decide)).2.2 1).2⟩⟩

section Monotonicity

variable {h : DFHooks} {near far : DFState → Nat → Finset Nat}
variable {nearK farK : DFState → Finset Nat} {gen kill : Nat → Finset Nat}

theorem mono_process_child
    (hs : HookSpec h near far nearK farK gen kill) (nid : Nat)
    (t : DFState) (a : Nat) :
    (∀ m, near t m ⊆ near (process_child h nid t a) m) ∧
    (∀ m, far (process_child h nid t a) m = far t m) := by
  unfold process_child
  by_cases hv : a ∈ t.visited
  · rw [if_pos hv]
    cases hb : (h.can_propagate t nid a).1 with
    | true =>
      rw [if_pos rfl]
      constructor
      · intro m
        rw [hs.push_near, hs.prop_near, hs.cp_near, hs.cp_far]
        by_cases hma : m = a
        · subst hma; simp
        · simp [hma]
      · intro m
        rw [hs.push_far, hs.prop_far, hs.cp_far]
    | false =>
      rw [if_neg (by simp)]
      exact ⟨fun m => by rw [hs.cp_near], fun m => by rw [hs.cp_far]⟩
  · rw [if_neg hv]
    constructor
    · intro m
      rw [hs.push_near, hs.prop_near]
      by_cases hma : m = a
      · subst hma; simp
      · simp [hma]
    · intro m
      rw [hs.push_far, hs.prop_far]

theorem subinv_process_child
    (hs : HookSpec h near far nearK farK gen kill) (nid : Nat)
    (t : DFState) (a : Nat) (ht : SubInv near far gen kill t) :
    SubInv near far gen kill (process_child h nid t a) := by
  intro m
  rw [(mono_process_child hs nid t a).2 m]
  exact (ht m).trans (Finset.union_subset_union_right
    (Finset.sdiff_subset_sdiff ((mono_process_child hs nid t a).1 m) (le_refl _)))

theorem mono_process_node
    (hs : HookSpec h near far nearK farK gen kill) (s : DFState) (nid : Nat)
    (hsub : SubInv near far gen kill s) :
    SubInv near far gen kill (process_node h { s with worklist := s.worklist.tail } nid) ∧
    (∀ m, near s m ⊆ near (process_node h { s with worklist := s.worklist.tail } nid) m) ∧
    (∀ m, far s m ⊆ far (process_node h { s with worklist := s.worklist.tail } nid) m) := by
  unfold process_node
  refine foldl_preserve (process_child h nid)
    (fun t => SubInv near far gen kill t ∧
      (∀ m, near s m ⊆ near t m) ∧ (∀ m, far s m ⊆ far t m))
    (fun t a hp =>
      ⟨subinv_process_child hs nid t a hp.1,
       fun m => (hp.2.1 m).trans ((mono_process_child hs nid t a).1 m),
       fun m => le_of_le_of_eq (hp.2.2 m) ((mono_process_child hs nid t a).2 m).symm⟩)
    _ _ ?_
  set s0 : DFState := { s with worklist := s.worklist.tail } with hs0
  have hn0 : near s0 = near s := hs.wl_near s _
  have hf0 : far s0 = far s := hs.wl_far s _
  have hafe_far : far (h.apply_flow_eq s0 nid) =
      fun m => if m = nid then gen nid ∪ (near s0 nid \ kill nid) else far s0 m :=
    hs.afe_far s0 nid
  refine ⟨?_, ?_, ?_⟩
  · intro m
    rw [hafe_far, hs.afe_near, hn0]
    by_cases hmn : m = nid
    · subst hmn; simp [hn0]
    · simp only [hmn, if_false, hf0]
      exact hsub m
  · intro m
    rw [hs.afe_near, hn0]
  · intro m
    rw [hafe_far]
    by_cases hmn : m = nid
    · subst hmn
      simp only [if_pos rfl, hn0]
      exact hsub _
    · simp only [hmn, if_false, hf0]
      exact subset_rfl

theorem mono_drain
    (hs : HookSpec h near far nearK farK gen kill) (fuel : Nat) :
    ∀ s, SubInv near far gen kill s →
      SubInv near far gen kill (drain h fuel s) ∧
      (∀ m, near s m ⊆ near (drain h fuel s) m) ∧
      (∀ m, far s m ⊆ far (drain h fuel s) m) := by
  induction fuel with
  | zero => exact fun s hsub => ⟨hsub, fun m => subset_rfl, fun m => subset_rfl⟩
  | succ fuel ih =>
    intro s hsub
    cases hw : s.worklist with
    | nil =>
      rw [drain_nil h _ s hw]
      exact ⟨hsub, fun m => subset_rfl, fun m => subset_rfl⟩
    | cons nid rest =>
      rw [drain_cons h fuel s nid rest hw]
      have htail : s.worklist.tail = rest := by rw [hw]; rfl
      have hstep := mono_process_node hs s nid hsub
      rw [htail] at hstep
      obtain ⟨h1, h2, h3⟩ := hstep
      obtain ⟨g1, g2, g3⟩ := ih _ h1
      exact ⟨g1, fun m => (h2 m).trans (g2 m), fun m => (h3 m).trans (g3 m)⟩

theorem mono_drain_fuel
    (hs : HookSpec h near far nearK farK gen kill) (s : DFState)
    (hsub : SubInv near far gen kill s) (f g : Nat) (hfg : f ≤ g) :
    (∀ m, near (drain h f s) m ⊆ near (drain h g s) m) ∧
    (∀ m, far (drain h f s) m ⊆ far (drain h g s) m) := by
  obtain ⟨d, rfl⟩ := Nat.exists_eq_add_of_le hfg
  rw [drain_add h f d s]
  have hmid := mono_drain hs f s hsub
  exact ⟨(mono_drain hs d _ hmid.1).2.1, (mono_drain hs d _ hmid.1).2.2⟩

end Monotonicity

/-- Claim C5, counterexample: on `cfgA` (two `Entry` nodes 1 and 2, with the
definition node 3 flowing into node 2), the forward run reaches the
intermediate state `midA` with `in[2] = {3}`, then the seeding of the second
entry node 2 resets `in[2]` to `∅` — the set loses element 3 mid-run, and
the final returned `in[2]` no longer contains it. -/
theorem claim_C5_counterexample :
    PossiblyReachingDefinitions.call cfgA 10 =
      drain (PossiblyReachingDefinitions.hooks cfgA) 10
        (PossiblyReachingDefinitions.pre_loop_init midA 2) ∧
    3 ∈ midA.in_dict 2 ∧
    3 ∉ (PossiblyReachingDefinitions.pre_loop_init midA 2).in_dict 2 ∧
    (PossiblyReachingDefinitions.call cfgA 10).worklist = [] ∧
    3 ∉ (PossiblyReachingDefinitions.call cfgA 10).in_dict 2 :=
  ⟨rfl, by decide, by decide, by decide, by decide⟩

/-- Claim C5 (amended): when the CFG has a single boundary node (one `Entry`
node for the forward analysis; one `Exit` node for the backward one), the
whole run is one drain and `in[n]`/`out[n]` only grow across its worklist
iterations (states after `f` and `g ≥ f` iterations are pointwise ⊆).  With
several boundary nodes, seeding a later boundary node resets its near-slot,
which can drop previously propagated facts. -/
theorem claim_C5_amended (cfg : CFG) (b f g : Nat) (hfg : f ≤ g) :
    (PossiblyReachingDefinitions.get_entry_node cfg = [b] →
      ∀ n, (PossiblyReachingDefinitions.call cfg f).in_dict n ⊆
          (PossiblyReachingDefinitions.call cfg g).in_dict n ∧
        (PossiblyReachingDefinitions.call cfg f).out_dict n ⊆
          (PossiblyReachingDefinitions.call cfg g).out_dict n) ∧
    (PossibleReachableReferences.get_exit_node cfg = [b] →
      ∀ n, (PossibleReachableReferences.call cfg f).in_dict n ⊆
          (PossibleReachableReferences.call cfg g).in_dict n ∧
        (PossibleReachableReferences.call cfg f).out_dict n ⊆
          (PossibleReachableReferences.call cfg g).out_dict n) := by
  constructor
  · intro hb n
    have hcf : PossiblyReachingDefinitions.call cfg f =
        drain (PossiblyReachingDefinitions.hooks cfg) f
          (PossiblyReachingDefinitions.pre_loop_init initState b) := by
      unfold PossiblyReachingDefinitions.call
      rw [hb]
      rfl
    have hcg : PossiblyReachingDefinitions.call cfg g =
        drain (PossiblyReachingDefinitions.hooks cfg) g
          (PossiblyReachingDefinitions.pre_loop_init initState b) := by
      unfold PossiblyReachingDefinitions.call
      rw [hb]
      rfl
    rw [hcf, hcg]
    have hsub : SubInv (fun s => s.in_dict) (fun s => s.out_dict)
        (PossiblyReachingDefinitions.build_gen cfg)
        (build_kill cfg (build_defs cfg) (PossiblyReachingDefinitions.build_gen cfg))
        (PossiblyReachingDefinitions.pre_loop_init initState b) :=
      fun _ => Finset.empty_subset _
    exact ⟨(mono_drain_fuel (prd_hookSpec cfg) _ hsub f g hfg).1 n,
      (mono_drain_fuel (prd_hookSpec cfg) _ hsub f g hfg).2 n⟩
  · intro hb n
    have hcf : PossibleReachableReferences.call cfg f =
        drain (PossibleReachableReferences.hooks cfg) f
          (PossibleReachableReferences.pre_loop_init initState b) := by
      unfold PossibleReachableReferences.call
      rw [hb]
      rfl
    have hcg : PossibleReachableReferences.call cfg g =
        drain (PossibleReachableReferences.hooks cfg) g
          (PossibleReachableReferences.pre_loop_init initState b) := by
      unfold PossibleReachableReferences.call
      rw [hb]
      rfl
    rw [hcf, hcg]
    have hsub : SubInv (fun s => s.out_dict) (fun s => s.in_dict)
        (PossibleReachableReferences.build_gen cfg)
        (build_kill cfg (build_defs cfg) (PossibleReachableReferences.build_gen cfg))
        (PossibleReachableReferences.pre_loop_init initState b) :=
      fun _ => Finset.empty_subset _
    exact ⟨(mono_drain_fuel (prr_hookSpec cfg) _ hsub f g hfg).2 n,
      (mono_drain_fuel (prr_hookSpec cfg) _ hsub f g hfg).1 n⟩

/-- Witness for the amended claim C5: `cfgB` has the single entry node 1;
along the forward run, `in[1]` and `out[1]` after 1 iteration are contained
in their values after 10 iterations. -/
theorem claim_C5_amended_witness :
    (PossiblyReachingDefinitions.call cfgB 1).in_dict 1 ⊆
      (PossiblyReachingDefinitions.call cfgB 10).in_dict 1 ∧
    (PossiblyReachingDefinitions.call cfgB 1).out_dict 1 ⊆
      (PossiblyReachingDefinitions.call cfgB 10).out_dict 1 :=
  (claim_C5_amended cfgB 1 1 10 (by decide)).1 (by decide) 1

section KeysInvariant

variable {h : DFHooks} {near far : DFState → Nat → Finset Nat}
variable {nearK farK : DFState → Finset Nat} {gen kill : Nat → Finset Nat}
variable {seedFn : DFState → Nat → DFState}

theorem vis_process_child
    (hs : HookSpec h near far nearK farK gen kill) (nid : Nat)
    (t : DFState) (a : Nat) : t.visited ⊆ (process_child h nid t a).visited := by
  unfold process_child
  by_cases hv : a ∈ t.visited
  · rw [if_pos hv]
    cases hb : (h.can_propagate t nid a).1 with
    | true =>
      rw [if_pos rfl, push_visited, hs.prop_visited, hs.cp_visited]
      exact Finset.subset_insert _ _
    | false =>
      rw [if_neg (by simp), hs.cp_visited]
  · rw [if_neg hv, push_visited, hs.prop_visited]
    exact Finset.subset_insert _ _

theorem kinv_process_child
    (hs : HookSpec h near far nearK farK gen kill) (nid : Nat)
    (t : DFState) (a : Nat) (hnid : nid ∈ t.visited)
    (ht : KInv near far nearK farK t) :
    KInv near far nearK farK (process_child h nid t a) := by
  obtain ⟨hnK, hfK, hwl, hnv, hfv⟩ := ht
  unfold process_child
  by_cases hv : a ∈ t.visited
  · rw [if_pos hv]
    cases hb : (h.can_propagate t nid a).1 with
    | true =>
      rw [if_pos rfl]
      refine ⟨?_, ?_, ?_, ?_, ?_⟩
      · rw [hs.push_nearK, hs.prop_nearK, hs.cp_nearK, push_visited, hs.prop_visited,
          hs.cp_visited]
        exact Finset.insert_subset_insert a (Finset.insert_subset_iff.mpr
          ⟨Finset.mem_insert_self a _, hnK.trans (Finset.subset_insert a _)⟩) |>.trans
          (by rw [Finset.insert_idem])
      · rw [hs.push_farK, hs.prop_farK, hs.cp_farK, push_visited, hs.prop_visited,
          hs.cp_visited]
        intro x hx
        rcases Finset.mem_insert.mp hx with rfl | hx
        · exact Finset.mem_insert_of_mem hnid
        · rcases Finset.mem_insert.mp hx with rfl | hx
          · exact Finset.mem_insert_of_mem hnid
          · exact Finset.mem_insert_of_mem (hfK hx)
      · rw [push_worklist, hs.prop_worklist, hs.cp_worklist, push_visited, hs.prop_visited,
          hs.cp_visited]
        intro x hx
        rcases List.mem_cons.mp hx with rfl | hx
        · exact Finset.mem_insert_self _ _
        · exact Finset.mem_insert_of_mem (hwl x hx)
      · intro n hn
        rw [hs.push_nearK, hs.prop_nearK, hs.cp_nearK] at hn
        simp only [Finset.mem_insert, not_or] at hn
        rw [hs.push_near, hs.prop_near, hs.cp_near, hs.cp_far]
        simp only [hn.1, if_false]
        exact hnv n hn.2.2
      · intro n hn
        rw [hs.push_farK, hs.prop_farK, hs.cp_farK] at hn
        simp only [Finset.mem_insert, not_or] at hn
        rw [hs.push_far, hs.prop_far, hs.cp_far]
        exact hfv n hn.2.2
    | false =>
      rw [if_neg (by simp)]
      refine ⟨?_, ?_, ?_, ?_, ?_⟩
      · rw [hs.cp_nearK, hs.cp_visited]
        exact Finset.insert_subset_iff.mpr ⟨hv, hnK⟩
      · rw [hs.cp_farK, hs.cp_visited]
        exact Finset.insert_subset_iff.mpr ⟨hnid, hfK⟩
      · rw [hs.cp_worklist, hs.cp_visited]
        exact hwl
      · intro n hn
        rw [hs.cp_nearK] at hn
        simp only [Finset.mem_insert, not_or] at hn
        rw [hs.cp_near]
        exact hnv n hn.2
      · intro n hn
        rw [hs.cp_farK] at hn
        simp only [Finset.mem_insert, not_or] at hn
        rw [hs.cp_far]
        exact hfv n hn.2
  · rw [if_neg hv]
    refine ⟨?_, ?_, ?_, ?_, ?_⟩
    · rw [hs.push_nearK, hs.prop_nearK, push_visited, hs.prop_visited]
      exact Finset.insert_subset_iff.mpr
        ⟨Finset.mem_insert_self _ _, hnK.trans (Finset.subset_insert a _)⟩
    · rw [hs.push_farK, hs.prop_farK, push_visited, hs.prop_visited]
      exact Finset.insert_subset_iff.mpr
        ⟨Finset.mem_insert_of_mem hnid, hfK.trans (Finset.subset_insert a _)⟩
    · rw [push_worklist, hs.prop_worklist, push_visited, hs.prop_visited]
      intro x hx
      rcases List.mem_cons.mp hx with rfl | hx
      · exact Finset.mem_insert_self _ _
      · exact Finset.mem_insert_of_mem (hwl x hx)
    · intro n hn
      rw [hs.push_nearK, hs.prop_nearK] at hn
      simp only [Finset.mem_insert, not_or] at hn
      rw [hs.push_near, hs.prop_near]
      simp only [hn.1, if_false]
      exact hnv n hn.2
    · intro n hn
      rw [hs.push_farK, hs.prop_farK] at hn
      simp only [Finset.mem_insert, not_or] at hn
      rw [hs.push_far, hs.prop_far]
      exact hfv n hn.2

theorem kinv_process_node
    (hs : HookSpec h near far nearK farK gen kill) (s : DFState) (nid : Nat)
    (rest : List Nat) (hw : s.worklist = nid :: rest)
    (ht : KInv near far nearK farK s) :
    KInv near far nearK farK (process_node h { s with worklist := rest } nid) := by
  obtain ⟨hnK, hfK, hwl, hnv, hfv⟩ := ht
  have hnid : nid ∈ s.visited := hwl nid (by rw [hw]; exact List.mem_cons_self _ _)
  unfold process_node
  have hbase : KInv near far nearK farK
      (h.apply_flow_eq { s with worklist := rest } nid) ∧
        nid ∈ (h.apply_flow_eq { s with worklist := rest } nid).visited := by
    constructor
    · refine ⟨?_, ?_, ?_, ?_, ?_⟩
      · rw [hs.afe_nearK, hs.wl_nearK, hs.afe_visited]
        exact Finset.insert_subset_iff.mpr ⟨hnid, hnK⟩
      · rw [hs.afe_farK, hs.wl_farK, hs.afe_visited]
        exact Finset.insert_subset_iff.mpr ⟨hnid, hfK⟩
      · rw [hs.afe_worklist, hs.afe_visited]
        intro x hx
        exact hwl x (by rw [hw]; exact List.mem_cons_of_mem _ hx)
      · intro n hn
        rw [hs.afe_nearK, hs.wl_nearK] at hn
        simp only [Finset.mem_insert, not_or] at hn
        rw [hs.afe_near, hs.wl_near]
        exact hnv n hn.2
      · intro n hn
        rw [hs.afe_farK, hs.wl_farK] at hn
        simp only [Finset.mem_insert, not_or] at hn
        simp only [hs.afe_far, hn.1, if_false, hs.wl_far]
        exact hfv n hn.2
    · rw [hs.afe_visited]
      exact hnid
  refine (foldl_preserve (process_child h nid)
    (fun t => KInv near far nearK farK t ∧ nid ∈ t.visited)
    (fun t a hp => ⟨kinv_process_child hs nid t a hp.2 hp.1,
      vis_process_child hs nid t a hp.2⟩) _ _ hbase).1

theorem kinv_drain
    (hs : HookSpec h near far nearK farK gen kill) (fuel : Nat) :
    ∀ s, KInv near far nearK farK s → KInv near far nearK farK (drain h fuel s) := by
  induction fuel with
  | zero => exact fun s ht => ht
  | succ fuel ih =>
    intro s ht
    cases hw : s.worklist with
    | nil => rw [drain_nil h _ s hw]; exact ht
    | cons nid rest =>
      rw [drain_cons h fuel s nid rest hw]
      exact ih _ (kinv_process_node hs s nid rest hw ht)

theorem kinv_seed
    (ss : SeedSpec seedFn near far nearK farK) (s : DFState) (b : Nat)
    (ht : KInv near far nearK farK s) :
    KInv near far nearK farK (seedFn s b) := by
  obtain ⟨hnK, hfK, hwl, hnv, hfv⟩ := ht
  refine ⟨?_, ?_, ?_, ?_, ?_⟩
  · rw [ss.nearK_eq, ss.visited_eq]
    exact Finset.insert_subset_iff.mpr
      ⟨Finset.mem_insert_self _ _, hnK.trans (Finset.subset_insert b _)⟩
  · rw [ss.farK_eq, ss.visited_eq]
    exact hfK.trans (Finset.subset_insert b _)
  · rw [ss.worklist_eq, ss.visited_eq]
    intro x hx
    rcases List.mem_cons.mp hx with rfl | hx
    · exact Finset.mem_insert_self _ _
    · exact Finset.mem_insert_of_mem (hwl x hx)
  · intro n hn
    rw [ss.nearK_eq] at hn
    simp only [Finset.mem_insert, not_or] at hn
    simp only [ss.near_eq, hn.1, if_false]
    exact hnv n hn.2
  · intro n hn
    rw [ss.farK_eq] at hn
    rw [ss.far_eq]
    exact hfv n hn

theorem kinv_run
    (hs : HookSpec h near far nearK farK gen kill)
    (ss : SeedSpec seedFn near far nearK farK)
    (hinit : KInv near far nearK farK initState)
    (boundary : List Nat) (fuel : Nat) :
    KInv near far nearK farK (run_loop h seedFn boundary fuel initState) := by
  unfold run_loop
  exact foldl_preserve _ (KInv near far nearK farK)
    (fun t b hp => kinv_drain hs fuel _ (kinv_seed ss t b hp)) _ _ hinit

end KeysInvariant

/-- Claim C9, counterexample: on `cfgB` the forward run terminates, node 2
belongs to the CFG, yet the returned in/out defaultdicts hold no entry for
it: the maps do not contain one entry per CFG node, and no per-node
initialization to `∅` happens during setup. -/
theorem claim_C9_counterexample :
    (PossiblyReachingDefinitions.call cfgB 10).worklist = [] ∧
    2 ∈ cfgB.node_ids ∧
    2 ∉ (PossiblyReachingDefinitions.call cfgB 10).in_keys ∧
    2 ∉ (PossiblyReachingDefinitions.call cfgB 10).out_keys := by decide

/-- Claim C9 (amended): the returned in/out maps are `defaultdict`s whose
entries all belong to visited nodes; a node the run never visited has no
entry in either map, and its lookup yields the default `∅`. -/
theorem claim_C9_amended (cfg : CFG) (fuel n : Nat) :
    (n ∉ (PossiblyReachingDefinitions.call cfg fuel).visited →
      n ∉ (PossiblyReachingDefinitions.call cfg fuel).in_keys ∧
      n ∉ (PossiblyReachingDefinitions.call cfg fuel).out_keys ∧
      (PossiblyReachingDefinitions.call cfg fuel).in_dict n = ∅ ∧
      (PossiblyReachingDefinitions.call cfg fuel).out_dict n = ∅) ∧
    (n ∉ (PossibleReachableReferences.call cfg fuel).visited →
      n ∉ (PossibleReachableReferences.call cfg fuel).in_keys ∧
      n ∉ (PossibleReachableReferences.call cfg fuel).out_keys ∧
      (PossibleReachableReferences.call cfg fuel).in_dict n = ∅ ∧
      (PossibleReachableReferences.call cfg fuel).out_dict n = ∅) := by
  constructor
  · intro hn
    have hk : KInv (fun s => s.in_dict) (fun s => s.out_dict)
        (fun s => s.in_keys) (fun s => s.out_keys)
        (PossiblyReachingDefinitions.call cfg fuel) :=
      kinv_run (prd_hookSpec cfg) prd_seedSpec
        ⟨Finset.empty_subset _, Finset.empty_subset _, by simp [initState],
          fun _ _ => rfl, fun _ _ => rfl⟩ _ fuel
    obtain ⟨hnK, hfK, _, hnv, hfv⟩ := hk
    have h1 : n ∉ (PossiblyReachingDefinitions.call cfg fuel).in_keys :=
      fun hc => hn (hnK hc)
    have h2 : n ∉ (PossiblyReachingDefinitions.call cfg fuel).out_keys :=
      fun hc => hn (hfK hc)
    exact ⟨h1, h2, hnv n h1, hfv n h2⟩
  · intro hn
    have hk : KInv (fun s => s.out_dict) (fun s => s.in_dict)
        (fun s => s.out_keys) (fun s => s.in_keys)
        (PossibleReachableReferences.call cfg fuel) :=
      kinv_run (prr_hookSpec cfg) prr_seedSpec
        ⟨Finset.empty_subset _, Finset.empty_subset _, by simp [initState],
          fun _ _ => rfl, fun _ _ => rfl⟩ _ fuel
    obtain ⟨hnK, hfK, _, hnv, hfv⟩ := hk
    have h1 : n ∉ (PossibleReachableReferences.call cfg fuel).out_keys :=
      fun hc => hn (hnK hc)
    have h2 : n ∉ (PossibleReachableReferences.call cfg fuel).in_keys :=
      fun hc => hn (hfK hc)
    exact ⟨h2, h1, hfv n h2, hnv n h1⟩

/-- Witness for the amended claim C9 at `cfgB`, node 2: unvisited, hence
absent from both maps with default value `∅`. -/
theorem claim_C9_amended_witness :
    2 ∉ (PossiblyReachingDefinitions.call cfgB 10).in_keys ∧
    2 ∉ (PossiblyReachingDefinitions.call cfgB 10).out_keys ∧
    (PossiblyReachingDefinitions.call cfgB 10).in_dict 2 = ∅ ∧
    (PossiblyReachingDefinitions.call cfgB 10).out_dict 2 = ∅ :=
  (claim_C9_amended cfgB 10 2).1 (by decide)

theorem sum_card_dec (V : Finset Nat) (f g : Nat → Nat) (a : Nat) (ha : a ∈ V)
    (hother : ∀ n ∈ V, n ≠ a → g n = f n) (hlt : g a + 1 ≤ f a) :
    (V.sum g) + 1 ≤ V.sum f := by
  have hsplit_f : V.sum f = f a + (V.erase a).sum f := (Finset.add_sum_erase V f ha).symm
  have hsplit_g : V.sum g = g a + (V.erase a).sum g := (Finset.add_sum_erase V g ha).symm
  have hrest : (V.erase a).sum g = (V.erase a).sum f :=
    Finset.sum_congr rfl
      (fun n hn => hother n (Finset.mem_of_mem_erase hn) (Finset.ne_of_mem_erase hn))
  rw [hsplit_f, hsplit_g, hrest]
  omega

section Termination

variable {h : DFHooks} {near far : DFState → Nat → Finset Nat}
variable {nearK farK : DFState → Finset Nat} {gen kill : Nat → Finset Nat}
variable {seedFn : DFState → Nat → DFState}

theorem term_process_child
    (hs : HookSpec h near far nearK farK gen kill) (V : Finset Nat) (nid : Nat)
    (t : DFState) (a : Nat) (hV : Vinv V near far t) (haV : a ∈ V) :
    Vinv V near far (process_child h nid t a) ∧
    engineMeasure V near (process_child h nid t a) ≤ engineMeasure V near t := by
  obtain ⟨hwl, hnear, hfar⟩ := hV
  unfold process_child
  by_cases hv : a ∈ t.visited
  · rw [if_pos hv]
    cases hb : (h.can_propagate t nid a).1 with
    | true =>
      rw [if_pos rfl]
      have hne : far t nid \ near t a ≠ ∅ := by
        have := hs.cp_fst t nid a
        rw [hb] at this
        exact of_decide_eq_true this.symm
      obtain ⟨x, hx⟩ := Finset.nonempty_iff_ne_empty.mpr hne
      rw [Finset.mem_sdiff] at hx
      have hnear2 : near (push (h.propagate (h.can_propagate t nid a).2 nid a) a) =
          fun m => if m = a then near t a ∪ far t nid else near t m := by
        rw [hs.push_near, hs.prop_near, hs.cp_near, hs.cp_far]
      have hfar2 : far (push (h.propagate (h.can_propagate t nid a).2 nid a) a) = far t := by
        rw [hs.push_far, hs.prop_far, hs.cp_far]
      have hvis2 : (push (h.propagate (h.can_propagate t nid a).2 nid a) a).visited =
          t.visited := by
        rw [push_visited, hs.prop_visited, hs.cp_visited, Finset.insert_eq_self.mpr hv]
      have hwl2 : (push (h.propagate (h.can_propagate t nid a).2 nid a) a).worklist =
          a :: t.worklist := by
        rw [push_worklist, hs.prop_worklist, hs.cp_worklist]
      constructor
      · refine ⟨?_, ?_, ?_⟩
        · rw [hwl2]
          intro y hy
          rcases List.mem_cons.mp hy with rfl | hy
          · exact haV
          · exact hwl y hy
        · rw [hnear2]
          intro n
          show (if n = a then near t a ∪ far t nid else near t n) ⊆ V
          by_cases hna : n = a
          · rw [if_pos hna]
            exact Finset.union_subset (hnear a) (hfar nid)
          · rw [if_neg hna]
            exact hnear n
        · rw [hfar2]
          exact hfar
      · unfold engineMeasure
        rw [hwl2, hvis2, List.length_cons]
        have hsum_eq : (V.sum fun n =>
            V.card - (near (push (h.propagate (h.can_propagate t nid a).2 nid a) a) n).card) =
            V.sum fun n =>
              V.card - (if n = a then near t a ∪ far t nid else near t n).card :=
          Finset.sum_congr rfl (fun n _ => by rw [hnear2])
        rw [hsum_eq]
        have hsum : (V.sum fun n =>
            V.card - (if n = a then near t a ∪ far t nid else near t n).card) + 1 ≤
            V.sum fun n => V.card - (near t n).card := by
          refine sum_card_dec V (fun n => V.card - (near t n).card)
            (fun n => V.card - (if n = a then near t a ∪ far t nid else near t n).card)
            a haV (fun n _ hna => by
              show V.card - (if n = a then near t a ∪ far t nid else near t n).card =
                V.card - (near t n).card
              rw [if_neg hna]) ?_
          show V.card - (if a = a then near t a ∪ far t nid else near t a).card + 1 ≤
            V.card - (near t a).card
          rw [if_pos rfl]
          have hlt : (near t a).card < (near t a ∪ far t nid).card :=
            Finset.card_lt_card (Finset.ssubset_iff_of_subset Finset.subset_union_left
              |>.mpr ⟨x, Finset.mem_union_right _ hx.1, hx.2⟩)
          have hle : (near t a ∪ far t nid).card ≤ V.card :=
            Finset.card_le_card (Finset.union_subset (hnear a) (hfar nid))
          omega
        omega
    | false =>
      rw [if_neg (by simp)]
      have hnear2 : near (h.can_propagate t nid a).2 = near t := hs.cp_near t nid a
      have hfar2 : far (h.can_propagate t nid a).2 = far t := hs.cp_far t nid a
      have hvis2 : (h.can_propagate t nid a).2.visited = t.visited := hs.cp_visited t nid a
      have hwl2 : (h.can_propagate t nid a).2.worklist = t.worklist := hs.cp_worklist t nid a
      constructor
      · exact ⟨by rw [hwl2]; exact hwl, by rw [hnear2]; exact hnear, by rw [hfar2]; exact hfar⟩
      · unfold engineMeasure
        rw [hwl2, hvis2, hnear2]
  · rw [if_neg hv]
    have hnear2 : near (push (h.propagate t nid a) a) =
        fun m => if m = a then near t a ∪ far t nid else near t m := by
      rw [hs.push_near, hs.prop_near]
    have hfar2 : far (push (h.propagate t nid a) a) = far t := by
      rw [hs.push_far, hs.prop_far]
    have hvis2 : (push (h.propagate t nid a) a).visited = insert a t.visited := by
      rw [push_visited, hs.prop_visited]
    have hwl2 : (push (h.propagate t nid a) a).worklist = a :: t.worklist := by
      rw [push_worklist, hs.prop_worklist]
    constructor
    · refine ⟨?_, ?_, ?_⟩
      · rw [hwl2]
        intro y hy
        rcases List.mem_cons.mp hy with rfl | hy
        · exact haV
        · exact hwl y hy
      · rw [hnear2]
        intro n
        show (if n = a then near t a ∪ far t nid else near t n) ⊆ V
        by_cases hna : n = a
        · rw [if_pos hna]
          exact Finset.union_subset (hnear a) (hfar nid)
        · rw [if_neg hna]
          exact hnear n
      · rw [hfar2]
        exact hfar
    · unfold engineMeasure
      rw [hwl2, hvis2, List.length_cons]
      have hinter : insert a t.visited ∩ V = insert a (t.visited ∩ V) :=
        Finset.insert_inter_of_mem haV
      have hcard : (insert a (t.visited ∩ V)).card = (t.visited ∩ V).card + 1 :=
        Finset.card_insert_of_not_mem (fun hc => hv (Finset.mem_inter.mp hc).1)
      have hbound : (t.visited ∩ V).card + 1 ≤ V.card := by
        rw [← hcard]
        exact Finset.card_le_card (Finset.insert_subset_iff.mpr
          ⟨haV, Finset.inter_subset_right⟩)
      have hsum_eq : (V.sum fun n =>
          V.card - (near (push (h.propagate t nid a) a) n).card) =
          V.sum fun n =>
            V.card - (if n = a then near t a ∪ far t nid else near t n).card :=
        Finset.sum_congr rfl (fun n _ => by rw [hnear2])
      rw [hsum_eq]
      have hsum : (V.sum fun n =>
          V.card - (if n = a then near t a ∪ far t nid else near t n).card) ≤
          V.sum fun n => V.card - (near t n).card := by
        refine Finset.sum_le_sum (fun n _ => ?_)
        show V.card - (if n = a then near t a ∪ far t nid else near t n).card ≤
          V.card - (near t n).card
        by_cases hna : n = a
        · rw [if_pos hna, hna]
          exact Nat.sub_le_sub_left (Finset.card_le_card Finset.subset_union_left) _
        · rw [if_neg hna]
      rw [hinter, hcard]
      omega

theorem term_process_node
    (hs : HookSpec h near far nearK farK gen kill) (V : Finset Nat)
    (HnextV : ∀ x ∈ V, ∀ m ∈ h.next_nodes x, m ∈ V)
    (HgenV : ∀ n, gen n ⊆ V)
    (s : DFState) (nid : Nat) (rest : List Nat)
    (hw : s.worklist = nid :: rest) (hV : Vinv V near far s) :
    Vinv V near far (process_node h { s with worklist := rest } nid) ∧
    engineMeasure V near (process_node h { s with worklist := rest } nid) + 1 ≤
      engineMeasure V near s := by
  obtain ⟨hwl, hnear, hfar⟩ := hV
  have hnidV : nid ∈ V := hwl nid (by rw [hw]; exact List.mem_cons_self _ _)
  unfold process_node
  have hnear1 : near (h.apply_flow_eq { s with worklist := rest } nid) = near s := by
    rw [hs.afe_near, hs.wl_near]
  have hfar1 : far (h.apply_flow_eq { s with worklist := rest } nid) =
      fun m => if m = nid then gen nid ∪ (near s nid \ kill nid) else far s m := by
    rw [hs.afe_far, hs.wl_near, hs.wl_far]
  have hvis1 : (h.apply_flow_eq { s with worklist := rest } nid).visited = s.visited :=
    hs.afe_visited _ nid
  have hwl1 : (h.apply_flow_eq { s with worklist := rest } nid).worklist = rest :=
    hs.afe_worklist _ nid
  have hV1 : Vinv V near far (h.apply_flow_eq { s with worklist := rest } nid) := by
    refine ⟨?_, ?_, ?_⟩
    · rw [hwl1]
      intro y hy
      exact hwl y (by rw [hw]; exact List.mem_cons_of_mem _ hy)
    · rw [hnear1]
      exact hnear
    · rw [hfar1]
      intro n
      show (if n = nid then gen nid ∪ (near s nid \ kill nid) else far s n) ⊆ V
      by_cases hn : n = nid
      · rw [if_pos hn]
        exact Finset.union_subset (HgenV nid) ((Finset.sdiff_subset).trans (hnear nid))
      · rw [if_neg hn]
        exact hfar n
  have hm1 : engineMeasure V near (h.apply_flow_eq { s with worklist := rest } nid) + 1 =
      engineMeasure V near s := by
    unfold engineMeasure
    rw [hwl1, hvis1, hw, List.length_cons]
    have hsum_eq : (V.sum fun n =>
        V.card - (near (h.apply_flow_eq { s with worklist := rest } nid) n).card) =
        V.sum fun n => V.card - (near s n).card :=
      Finset.sum_congr rfl (fun n _ => by rw [hnear1])
    rw [hsum_eq]
    omega
  have hfold := foldl_preserve_mem (process_child h nid)
    (fun t => Vinv V near far t ∧ engineMeasure V near t ≤
      engineMeasure V near (h.apply_flow_eq { s with worklist := rest } nid))
    (fun a => a ∈ V)
    (fun t a haV hp => ⟨(term_process_child hs V nid t a hp.1 haV).1,
      le_trans (term_process_child hs V nid t a hp.1 haV).2 hp.2⟩)
    (h.next_nodes nid) (HnextV nid hnidV) _ ⟨hV1, le_refl _⟩
  exact ⟨hfold.1, by omega⟩

theorem drain_term
    (hs : HookSpec h near far nearK farK gen kill) (V : Finset Nat)
    (HnextV : ∀ x ∈ V, ∀ m ∈ h.next_nodes x, m ∈ V)
    (HgenV : ∀ n, gen n ⊆ V) :
    ∀ fuel s, Vinv V near far s → engineMeasure V near s ≤ fuel →
      (drain h fuel s).worklist = [] ∧ Vinv V near far (drain h fuel s) := by
  intro fuel
  induction fuel with
  | zero =>
    intro s hV hm
    have hlen : s.worklist.length = 0 := by
      unfold engineMeasure at hm
      omega
    exact ⟨List.eq_nil_of_length_eq_zero hlen, hV⟩
  | succ fuel ih =>
    intro s hV hm
    cases hw : s.worklist with
    | nil =>
      rw [drain_nil h _ s hw]
      exact ⟨hw, hV⟩
    | cons nid rest =>
      rw [drain_cons h fuel s nid rest hw]
      obtain ⟨hV2, hm2⟩ := term_process_node hs V HnextV HgenV s nid rest hw hV
      exact ih _ hV2 (by omega)

/-- Master theorem of the outer seeding loop: given closed edges and gen
sets inside the universe, there is a fuel bound past which every prefix of
the boundary list has fully converged — each drain empties the worklist, and
the result no longer depends on the fuel. -/
theorem run_loop_master
    (hs : HookSpec h near far nearK farK gen kill)
    (ss : SeedSpec seedFn near far nearK farK) (V : Finset Nat)
    (HnextV : ∀ x ∈ V, ∀ m ∈ h.next_nodes x, m ∈ V)
    (HgenV : ∀ n, gen n ⊆ V) :
    ∀ bs s, (∀ b ∈ bs, b ∈ V) → Vinv V near far s → s.worklist = [] →
      ∃ fuel0, ∀ f, fuel0 ≤ f → ∀ bs1 bs2, bs = bs1 ++ bs2 →
        run_loop h seedFn bs1 f s = run_loop h seedFn bs1 fuel0 s ∧
        (run_loop h seedFn bs1 f s).worklist = [] ∧
        Vinv V near far (run_loop h seedFn bs1 f s) := by
  intro bs
  induction bs with
  | nil =>
    intro s _ hV hwl
    refine ⟨0, fun f _ bs1 bs2 hsplit => ?_⟩
    obtain ⟨rfl, rfl⟩ := List.append_eq_nil.mp hsplit.symm
    exact ⟨rfl, hwl, hV⟩
  | cons b bs ih =>
    intro s hb hV hwl
    have hVseed : Vinv V near far (seedFn s b) := by
      refine ⟨?_, ?_, ?_⟩
      · rw [ss.worklist_eq]
        intro y hy
        rcases List.mem_cons.mp hy with rfl | hy
        · exact hb y (List.mem_cons_self _ _)
        · exact hV.1 y hy
      · intro n
        rw [ss.near_eq]
        show (if n = b then ∅ else near s n) ⊆ V
        by_cases hn : n = b
        · rw [if_pos hn]
          exact Finset.empty_subset _
        · rw [if_neg hn]
          exact hV.2.1 n
      · intro n
        rw [ss.far_eq]
        exact hV.2.2 n
    obtain ⟨hdw, hdV⟩ := drain_term hs V HnextV HgenV
      (engineMeasure V near (seedFn s b)) (seedFn s b) hVseed (le_refl _)
    obtain ⟨fuel1, hfuel1⟩ := ih (drain h (engineMeasure V near (seedFn s b)) (seedFn s b))
      (fun x hx => hb x (List.mem_cons_of_mem _ hx)) hdV hdw
    refine ⟨max (engineMeasure V near (seedFn s b)) fuel1, fun f hf bs1 bs2 hsplit => ?_⟩
    cases bs1 with
    | nil =>
      exact ⟨rfl, hwl, hV⟩
    | cons b1 rest1 =>
      have hb1 : b1 = b := by
        have := congrArg (fun l => l.head?) hsplit
        simpa using this.symm
      rw [hb1]
      have hsplit2 : bs = rest1 ++ bs2 := by
        have := congrArg (fun l => l.tail) hsplit
        simpa using this
      have hkf : engineMeasure V near (seedFn s b) ≤ f :=
        le_trans (le_max_left _ _) hf
      have hdf : drain h f (seedFn s b) =
          drain h (engineMeasure V near (seedFn s b)) (seedFn s b) :=
        drain_stable h _ f _ hdw hkf
      have hdf0 : drain h (max (engineMeasure V near (seedFn s b)) fuel1) (seedFn s b) =
          drain h (engineMeasure V near (seedFn s b)) (seedFn s b) :=
        drain_stable h _ _ _ hdw (le_max_left _ _)
      have hr1 : run_loop h seedFn (b :: rest1) f s = run_loop h seedFn rest1 f
          (drain h (engineMeasure V near (seedFn s b)) (seedFn s b)) := by
        unfold run_loop
        rw [List.foldl_cons]
        rw [show drain h f (seedFn s b) =
          drain h (engineMeasure V near (seedFn s b)) (seedFn s b) from hdf]
      have hr2 : run_loop h seedFn (b :: rest1) (max (engineMeasure V near (seedFn s b)) fuel1)
          s = run_loop h seedFn rest1 (max (engineMeasure V near (seedFn s b)) fuel1)
          (drain h (engineMeasure V near (seedFn s b)) (seedFn s b)) := by
        unfold run_loop
        rw [List.foldl_cons]
        rw [show drain h (max (engineMeasure V near (seedFn s b)) fuel1) (seedFn s b) =
          drain h (engineMeasure V near (seedFn s b)) (seedFn s b) from hdf0]
      have hmain := hfuel1 f (le_trans (le_max_right _ _) hf) rest1 bs2 hsplit2
      have hmain0 := hfuel1 (max (engineMeasure V near (seedFn s b)) fuel1)
        (le_max_right _ _) rest1 bs2 hsplit2
      refine ⟨?_, ?_, ?_⟩
      · rw [hr1, hr2, hmain.1, hmain0.1]
      · rw [hr1]
        exact hmain.2.1
      · rw [hr1]
        exact hmain.2.2

end Termination

section OrderIndependence

variable {h : DFHooks} {near far : DFState → Nat → Finset Nat}
variable {nearK farK : DFState → Finset Nat} {gen kill : Nat → Finset Nat}
variable {seedFn : DFState → Nat → DFState}

theorem wl_process_child
    (hs : HookSpec h near far nearK farK gen kill) (nid : Nat)
    (t : DFState) (a : Nat) (x : Nat) (hx : x ∈ t.worklist) :
    x ∈ (process_child h nid t a).worklist := by
  unfold process_child
  by_cases hv : a ∈ t.visited
  · rw [if_pos hv]
    cases hb : (h.can_propagate t nid a).1 with
    | true =>
      rw [if_pos rfl, push_worklist, hs.prop_worklist, hs.cp_worklist]
      exact List.mem_cons_of_mem _ hx
    | false =>
      rw [if_neg (by simp), hs.cp_worklist]
      exact hx
  · rw [if_neg hv, push_worklist, hs.prop_worklist]
    exact List.mem_cons_of_mem _ hx

theorem fold_near_mono
    (hs : HookSpec h near far nearK farK gen kill) (nid : Nat) (l : List Nat) :
    ∀ t m, near t m ⊆ near (l.foldl (process_child h nid) t) m := by
  induction l with
  | nil => exact fun t m => subset_rfl
  | cons a l ih =>
    intro t m
    rw [List.foldl_cons]
    exact ((mono_process_child hs nid t a).1 m).trans (ih _ m)

theorem fold_far_eq
    (hs : HookSpec h near far nearK farK gen kill) (nid : Nat) (l : List Nat) :
    ∀ t, far (l.foldl (process_child h nid) t) = far t := by
  induction l with
  | nil => exact fun t => rfl
  | cons a l ih =>
    intro t
    rw [List.foldl_cons, ih]
    funext m
    exact (mono_process_child hs nid t a).2 m

theorem fold_vis_mono
    (hs : HookSpec h near far nearK farK gen kill) (nid : Nat) (l : List Nat) :
    ∀ t, t.visited ⊆ (l.foldl (process_child h nid) t).visited := by
  induction l with
  | nil => exact fun t => subset_rfl
  | cons a l ih =>
    intro t
    rw [List.foldl_cons]
    exact (vis_process_child hs nid t a).trans (ih _)

theorem fold_wl_mono
    (hs : HookSpec h near far nearK farK gen kill) (nid : Nat) (l : List Nat) :
    ∀ t x, x ∈ t.worklist → x ∈ (l.foldl (process_child h nid) t).worklist := by
  induction l with
  | nil => exact fun t x hx => hx
  | cons a l ih =>
    intro t x hx
    rw [List.foldl_cons]
    exact ih _ x (wl_process_child hs nid t a x hx)

/-- A node whose near-slot changed during one `process_child` step was
pushed by it. -/
theorem near_change_process_child
    (hs : HookSpec h near far nearK farK gen kill) (nid : Nat)
    (t : DFState) (a m : Nat)
    (hm : near (process_child h nid t a) m ≠ near t m) :
    m ∈ (process_child h nid t a).worklist := by
  unfold process_child at hm ⊢
  by_cases hv : a ∈ t.visited
  · rw [if_pos hv] at hm ⊢
    cases hb : (h.can_propagate t nid a).1 with
    | true =>
      rw [if_pos hb] at hm
      rw [if_pos rfl]
      rw [push_worklist]
      by_cases hma : m = a
      · rw [hma]
        exact List.mem_cons_self _ _
      · exfalso
        apply hm
        simp only [hs.push_near, hs.prop_near, hs.cp_near, hs.cp_far]
        show (if m = a then near t a ∪ far t nid else near t m) = near t m
        rw [if_neg hma]
    | false =>
      rw [if_neg (by simp [hb])] at hm
      exfalso
      apply hm
      rw [hs.cp_near]
  · rw [if_neg hv] at hm ⊢
    rw [push_worklist]
    by_cases hma : m = a
    · rw [hma]
      exact List.mem_cons_self _ _
    · exfalso
      apply hm
      simp only [hs.push_near, hs.prop_near]
      show (if m = a then near t a ∪ far t nid else near t m) = near t m
      rw [if_neg hma]

/-- Within one `process_node` fold, a node whose near-slot changed must have
been pushed. -/
theorem fold_near_change
    (hs : HookSpec h near far nearK farK gen kill) (nid : Nat) (l : List Nat) :
    ∀ t m, near (l.foldl (process_child h nid) t) m ≠ near t m →
      m ∈ (l.foldl (process_child h nid) t).worklist := by
  induction l with
  | nil => exact fun t m hm => absurd rfl hm
  | cons a l ih =>
    intro t m hm
    rw [List.foldl_cons] at hm ⊢
    by_cases hch : near (l.foldl (process_child h nid) (process_child h nid t a)) m =
        near (process_child h nid t a) m
    · rw [hch] at hm
      exact fold_wl_mono hs nid l _ m (near_change_process_child hs nid t a m hm)
    · exact ih _ m hch

/-- After processing `nid`, every walked neighbor `c` is visited and its
near-slot covers `nid`'s recomputed far value. -/
theorem edge_fold
    (hs : HookSpec h near far nearK farK gen kill) (nid : Nat) (l : List Nat) :
    ∀ t c, c ∈ l →
      far t nid ⊆ near (l.foldl (process_child h nid) t) c ∧
      c ∈ (l.foldl (process_child h nid) t).visited := by
  induction l with
  | nil => intro t c hc; cases hc
  | cons a l ih =>
    intro t c hc
    rw [List.foldl_cons]
    rcases List.mem_cons.mp hc with rfl | hc
    · have hbase : far t nid ⊆ near (process_child h nid t c) c ∧
          c ∈ (process_child h nid t c).visited := by
        unfold process_child
        by_cases hv : c ∈ t.visited
        · rw [if_pos hv]
          cases hb : (h.can_propagate t nid c).1 with
          | true =>
            rw [if_pos rfl]
            constructor
            · rw [hs.push_near, hs.prop_near, hs.cp_near, hs.cp_far]
              show far t nid ⊆ if c = c then near t c ∪ far t nid else near t c
              rw [if_pos rfl]
              exact Finset.subset_union_right
            · rw [push_visited]
              exact Finset.mem_insert_self _ _
          | false =>
            rw [if_neg (by simp)]
            have hcpf := hs.cp_fst t nid c
            rw [hb] at hcpf
            have hsub : far t nid \ near t c = ∅ := by
              by_contra hcon
              exact absurd (decide_eq_true hcon) (by rw [← hcpf]; simp)
            constructor
            · rw [hs.cp_near]
              exact Finset.sdiff_eq_empty_iff_subset.mp hsub
            · rw [hs.cp_visited]
              exact hv
        · rw [if_neg hv]
          constructor
          · rw [hs.push_near, hs.prop_near]
            show far t nid ⊆ if c = c then near t c ∪ far t nid else near t c
            rw [if_pos rfl]
            exact Finset.subset_union_right
          · rw [push_visited]
            exact Finset.mem_insert_self _ _
      exact ⟨hbase.1.trans (fold_near_mono hs nid l _ c),
        fold_vis_mono hs nid l _ hbase.2⟩
    · have hfar : far (process_child h nid t a) nid = far t nid :=
        (mono_process_child hs nid t a).2 nid
      have := ih (process_child h nid t a) c hc
      rw [hfar] at this
      exact this

theorem trace_near_mono
    (hs : HookSpec h near far nearK farK gen kill) {s t : DFState} {P : Finset Nat}
    (htr : DrainT h s t P) : ∀ m, near s m ⊆ near t m := by
  induction htr with
  | refl s => exact fun m => subset_rfl
  | step s t P l1 l2 nid hw htr ih =>
    intro m
    refine subset_trans ?_ (ih m)
    unfold process_node
    refine subset_trans ?_
      (fold_near_mono hs nid _ (h.apply_flow_eq { s with worklist := l1 ++ l2 } nid) m)
    rw [hs.afe_near, hs.wl_near s (l1 ++ l2)]

theorem trace_vis_mono
    (hs : HookSpec h near far nearK farK gen kill) {s t : DFState} {P : Finset Nat}
    (htr : DrainT h s t P) : s.visited ⊆ t.visited := by
  induction htr with
  | refl s => exact subset_rfl
  | step s t P l1 l2 nid hw htr ih =>
    refine subset_trans ?_ ih
    unfold process_node
    refine subset_trans ?_ (fold_vis_mono hs nid _ _)
    rw [hs.afe_visited]

theorem trace_far_stable
    (hs : HookSpec h near far nearK farK gen kill) {s t : DFState} {P : Finset Nat}
    (htr : DrainT h s t P) : ∀ m ∉ P, far t m = far s m := by
  induction htr with
  | refl s => exact fun m _ => rfl
  | step s t P l1 l2 nid hw htr ih =>
    intro m hm
    simp only [Finset.mem_insert, not_or] at hm
    rw [ih m hm.2]
    unfold process_node
    rw [fold_far_eq hs nid _ _]
    simp only [hs.afe_far, hm.1, if_false, hs.wl_far]

theorem trace_wl_popped
    (hs : HookSpec h near far nearK farK gen kill) {s t : DFState} {P : Finset Nat}
    (htr : DrainT h s t P) (hT : t.worklist = []) : ∀ x ∈ s.worklist, x ∈ P := by
  induction htr with
  | refl s =>
    intro x hx
    rw [hT] at hx
    cases hx
  | step s t P l1 l2 nid hw htr ih =>
    intro x hx
    rw [hw] at hx
    rcases List.mem_append.mp hx with hx | hx
    · refine Finset.mem_insert_of_mem (ih hT x ?_)
      unfold process_node
      refine fold_wl_mono hs nid _ _ x ?_
      rw [hs.afe_worklist]
      exact List.mem_append_left _ hx
    · rcases List.mem_cons.mp hx with rfl | hx
      · exact Finset.mem_insert_self _ _
      · refine Finset.mem_insert_of_mem (ih hT x ?_)
        unfold process_node
        refine fold_wl_mono hs nid _ _ x ?_
        rw [hs.afe_worklist]
        exact List.mem_append_right _ hx

theorem trace_near_stable
    (hs : HookSpec h near far nearK farK gen kill) {s t : DFState} {P : Finset Nat}
    (htr : DrainT h s t P) (hT : t.worklist = []) : ∀ m ∉ P, near t m = near s m := by
  induction htr with
  | refl s => exact fun m _ => rfl
  | step s t P l1 l2 nid hw htr ih =>
    intro m hm
    simp only [Finset.mem_insert, not_or] at hm
    rw [ih hT m hm.2]
    by_cases hch : near (process_node h { s with worklist := l1 ++ l2 } nid) m =
        near (h.apply_flow_eq { s with worklist := l1 ++ l2 } nid) m
    · rw [show (process_node h { s with worklist := l1 ++ l2 } nid) =
        (h.next_nodes nid).foldl (process_child h nid)
          (h.apply_flow_eq { s with worklist := l1 ++ l2 } nid) from rfl] at hch ⊢
      rw [hch, hs.afe_near, hs.wl_near]
    · exfalso
      unfold process_node at hch
      have hpush := fold_near_change hs nid (h.next_nodes nid) _ m hch
      exact hm.2 (trace_wl_popped hs htr hT m hpush)

theorem wlvis_process_child
    (hs : HookSpec h near far nearK farK gen kill) (nid : Nat)
    (t : DFState) (a : Nat) (ht : WlVis t) : WlVis (process_child h nid t a) := by
  unfold process_child
  by_cases hv : a ∈ t.visited
  · rw [if_pos hv]
    cases hb : (h.can_propagate t nid a).1 with
    | true =>
      rw [if_pos rfl]
      intro x hx
      rw [push_worklist, hs.prop_worklist, hs.cp_worklist] at hx
      rw [push_visited, hs.prop_visited, hs.cp_visited]
      rcases List.mem_cons.mp hx with rfl | hx
      · exact Finset.mem_insert_self _ _
      · exact Finset.mem_insert_of_mem (ht x hx)
    | false =>
      rw [if_neg (by simp)]
      intro x hx
      rw [hs.cp_worklist] at hx
      rw [hs.cp_visited]
      exact ht x hx
  · rw [if_neg hv]
    intro x hx
    rw [push_worklist, hs.prop_worklist] at hx
    rw [push_visited, hs.prop_visited]
    rcases List.mem_cons.mp hx with rfl | hx
    · exact Finset.mem_insert_self _ _
    · exact Finset.mem_insert_of_mem (ht x hx)

theorem wlvis_process_node_pop
    (hs : HookSpec h near far nearK farK gen kill) (s : DFState) (nid : Nat)
    (l1 l2 : List Nat) (hw : s.worklist = l1 ++ nid :: l2) (ht : WlVis s) :
    WlVis (process_node h { s with worklist := l1 ++ l2 } nid) := by
  unfold process_node
  refine foldl_preserve (process_child h nid) WlVis
    (fun t a hp => wlvis_process_child hs nid t a hp) _ _ ?_
  intro x hx
  rw [hs.afe_worklist] at hx
  rw [hs.afe_visited]
  refine ht x ?_
  rw [hw]
  rcases List.mem_append.mp hx with hx | hx
  · exact List.mem_append_left _ hx
  · exact List.mem_append_right _ (List.mem_cons_of_mem _ hx)

theorem trace_wlvis
    (hs : HookSpec h near far nearK farK gen kill) {s t : DFState} {P : Finset Nat}
    (htr : DrainT h s t P) (ht : WlVis s) : WlVis t := by
  induction htr with
  | refl s => exact ht
  | step s t P l1 l2 nid hw htr ih =>
    exact ih (wlvis_process_node_pop hs s nid l1 l2 hw ht)

theorem vis_bound_process_child
    (hs : HookSpec h near far nearK farK gen kill) (nid : Nat)
    (t : DFState) (a : Nat) (y : Nat) (hy : y ∈ (process_child h nid t a).visited) :
    y ∈ t.visited ∨ y ∈ (process_child h nid t a).worklist := by
  unfold process_child at hy ⊢
  by_cases hv : a ∈ t.visited
  · rw [if_pos hv] at hy ⊢
    cases hb : (h.can_propagate t nid a).1 with
    | true =>
      rw [if_pos hb] at hy
      rw [if_pos rfl]
      rw [push_visited, hs.prop_visited, hs.cp_visited] at hy
      rcases Finset.mem_insert.mp hy with rfl | hy
      · right
        rw [push_worklist]
        exact List.mem_cons_self _ _
      · exact Or.inl hy
    | false =>
      rw [if_neg (by simp [hb])] at hy
      rw [hs.cp_visited] at hy
      exact Or.inl hy
  · rw [if_neg hv] at hy ⊢
    rw [push_visited, hs.prop_visited] at hy
    rcases Finset.mem_insert.mp hy with rfl | hy
    · right
      rw [push_worklist]
      exact List.mem_cons_self _ _
    · exact Or.inl hy

theorem fold_vis_bound
    (hs : HookSpec h near far nearK farK gen kill) (nid : Nat) (l : List Nat) :
    ∀ t y, y ∈ (l.foldl (process_child h nid) t).visited →
      y ∈ t.visited ∨ y ∈ (l.foldl (process_child h nid) t).worklist := by
  induction l with
  | nil => exact fun t y hy => Or.inl hy
  | cons a l ih =>
    intro t y hy
    rw [List.foldl_cons] at hy ⊢
    rcases ih _ y hy with hy2 | hy2
    · rcases vis_bound_process_child hs nid t a y hy2 with hy3 | hy3
      · exact Or.inl hy3
      · exact Or.inr (fold_wl_mono hs nid l _ y hy3)
    · exact Or.inr hy2

theorem trace_vis_char
    (hs : HookSpec h near far nearK farK gen kill) {s t : DFState} {P : Finset Nat}
    (htr : DrainT h s t P) (hT : t.worklist = []) (hwv : WlVis s) :
    (∀ y ∈ t.visited, y ∈ s.visited ∨ y ∈ P) ∧ (∀ y ∈ P, y ∈ t.visited) := by
  induction htr with
  | refl s => exact ⟨fun y hy => Or.inl hy, fun y hy => absurd hy (Finset.not_mem_empty y)⟩
  | step s t P l1 l2 nid hw htr ih =>
    obtain ⟨ih1, ih2⟩ := ih hT (wlvis_process_node_pop hs s nid l1 l2 hw hwv)
    constructor
    · intro y hy
      rcases ih1 y hy with hy2 | hy2
      · unfold process_node at hy2
        rcases fold_vis_bound hs nid _ _ y hy2 with hy3 | hy3
        · rw [hs.afe_visited] at hy3
          exact Or.inl hy3
        · exact Or.inr (Finset.mem_insert_of_mem
            (trace_wl_popped hs htr hT y hy3))
      · exact Or.inr (Finset.mem_insert_of_mem hy2)
    · intro y hy
      rcases Finset.mem_insert.mp hy with hy0 | hy
      · refine trace_vis_mono hs htr ?_
        unfold process_node
        refine fold_vis_mono hs nid _ _ ?_
        rw [hs.afe_visited, hy0]
        exact hwv nid (by rw [hw]; exact List.mem_append_right _ (List.mem_cons_self _ _))
      · exact ih2 y hy

theorem fixinv_process_node_pop
    (hs : HookSpec h near far nearK farK gen kill) (s : DFState) (nid : Nat)
    (l1 l2 : List Nat) (hw : s.worklist = l1 ++ nid :: l2)
    (hP : FixInv near far gen kill s) :
    FixInv near far gen kill (process_node h { s with worklist := l1 ++ l2 } nid) := by
  unfold process_node
  refine foldl_preserve (process_child h nid) (FixInv near far gen kill)
    (fun t a hp => fixinv_process_child hs nid t a hp) _ _ ?_
  intro m hm
  rw [hs.afe_visited] at hm
  rw [hs.afe_worklist]
  simp only [hs.afe_far, hs.afe_near, hs.wl_near, hs.wl_far]
  by_cases hmn : m = nid
  · exact Or.inr (by simp [hmn])
  · rcases hP m hm with hwl | heq
    · rw [hw] at hwl
      rcases List.mem_append.mp hwl with hwl | hwl
      · exact Or.inl (List.mem_append_left _ hwl)
      · rcases List.mem_cons.mp hwl with rfl | hwl
        · exact absurd rfl hmn
        · exact Or.inl (List.mem_append_right _ hwl)
    · exact Or.inr (by simpa [hmn] using heq)

theorem trace_fixinv
    (hs : HookSpec h near far nearK farK gen kill) {s t : DFState} {P : Finset Nat}
    (htr : DrainT h s t P) (hP : FixInv near far gen kill s) :
    FixInv near far gen kill t := by
  induction htr with
  | refl s => exact hP
  | step s t P l1 l2 nid hw htr ih =>
    exact ih (fixinv_process_node_pop hs s nid l1 l2 hw hP)

/-- At a terminal state, every popped node's far value has been propagated
into (or already lay below) each of its walked neighbors' near slots, and
those neighbors are visited. -/
theorem trace_edge
    (hs : HookSpec h near far nearK farK gen kill) {s t : DFState} {P : Finset Nat}
    (htr : DrainT h s t P) (hT : t.worklist = []) :
    ∀ m ∈ P, ∀ c ∈ h.next_nodes m, far t m ⊆ near t c ∧ c ∈ t.visited := by
  induction htr with
  | refl s => exact fun m hm => absurd hm (Finset.not_mem_empty m)
  | step s t P l1 l2 nid hw htr ih =>
    intro m hm c hc
    by_cases hmP : m ∈ P
    · exact ih hT m hmP c hc
    · have hmn : m = nid := by
        rcases Finset.mem_insert.mp hm with h0 | h0
        · exact h0
        · exact absurd h0 hmP
      rw [hmn] at hc ⊢
      have hnidP : nid ∉ P := by
        rw [hmn] at hmP
        exact hmP
      have hfs : far t nid =
          far (process_node h { s with worklist := l1 ++ l2 } nid) nid :=
        trace_far_stable hs htr nid hnidP
      have hff : far (process_node h { s with worklist := l1 ++ l2 } nid) nid =
          far (h.apply_flow_eq { s with worklist := l1 ++ l2 } nid) nid := by
        unfold process_node
        rw [fold_far_eq hs nid _ _]
      have hedge := edge_fold hs nid (h.next_nodes nid)
        (h.apply_flow_eq { s with worklist := l1 ++ l2 } nid) c hc
      constructor
      · rw [hfs, hff]
        exact hedge.1.trans (trace_near_mono hs htr c)
      · exact trace_vis_mono hs htr hedge.2

theorem simInv_popstep
    (hs : HookSpec h near far nearK farK gen kill) (σ T : DFState) (P : Finset Nat)
    (hT1 : ∀ m ∈ P, far T m = gen m ∪ (near T m \ kill m))
    (hT2 : ∀ m ∈ P, ∀ c ∈ h.next_nodes m, far T m ⊆ near T c ∧ c ∈ T.visited)
    (hT3 : ∀ m, m ∉ P → near T m = near σ m)
    (hT6 : ∀ y ∈ T.visited, y ∈ σ.visited ∨ y ∈ P)
    {u u' : DFState} (hstep : PopStep h u u') (hsim : SimInv near σ T P u) :
    SimInv near σ T P u' := by
  obtain ⟨hlo, hviso, hwlP, hhi, hvisT⟩ := hsim
  cases hstep with
  | pop l1 l2 nid hw =>
    have hnidP : nid ∈ P :=
      hwlP nid (by rw [hw]; exact List.mem_append_right _ (List.mem_cons_self _ _))
    unfold process_node
    have hnear1 : near (h.apply_flow_eq { u with worklist := l1 ++ l2 } nid) = near u := by
      rw [hs.afe_near, hs.wl_near u (l1 ++ l2)]
    have hfar1 : far (h.apply_flow_eq { u with worklist := l1 ++ l2 } nid) nid =
        gen nid ∪ (near u nid \ kill nid) := by
      rw [hs.afe_far]
      show (if nid = nid then gen nid ∪
        (near { u with worklist := l1 ++ l2 } nid \ kill nid)
        else far { u with worklist := l1 ++ l2 } nid) = _
      rw [if_pos rfl, hs.wl_near u (l1 ++ l2)]
    refine (foldl_preserve_mem (process_child h nid)
      (fun t => SimInv near σ T P t ∧ far t nid ⊆ far T nid)
      (fun a => a ∈ h.next_nodes nid) ?_ (h.next_nodes nid) (fun a ha => ha) _ ?_).1
    · intro t a ha hp
      obtain ⟨⟨jlo, jviso, jwlP, jhi, jvisT⟩, jfar⟩ := hp
      constructor
      · unfold process_child
        by_cases hv : a ∈ t.visited
        · rw [if_pos hv]
          cases hb : (h.can_propagate t nid a).1 with
          | true =>
            rw [if_pos rfl]
            have haP : a ∈ P := by
              by_contra haP
              have hcp := hs.cp_fst t nid a
              rw [hb] at hcp
              have hne : far t nid \ near t a ≠ ∅ := of_decide_eq_true hcp.symm
              obtain ⟨x, hx⟩ := Finset.nonempty_iff_ne_empty.mpr hne
              rw [Finset.mem_sdiff] at hx
              have hxT : x ∈ near T a := (jfar.trans (hT2 nid hnidP a ha).1) hx.1
              rw [hT3 a haP] at hxT
              exact hx.2 (jlo a hxT)
            refine ⟨?_, ?_, ?_, ?_, ?_⟩
            · intro m
              rw [hs.push_near, hs.prop_near]
              refine (jlo m).trans ?_
              show near t m ⊆ (fun m2 => if m2 = a then
                near (h.can_propagate t nid a).2 a ∪ far (h.can_propagate t nid a).2 nid
                else near (h.can_propagate t nid a).2 m2) m
              simp only [hs.cp_near, hs.cp_far]
              by_cases hma : m = a
              · rw [if_pos hma, hma]
                exact Finset.subset_union_left
              · rw [if_neg hma]
            · rw [push_visited, hs.prop_visited, hs.cp_visited]
              exact jviso.trans (Finset.subset_insert a _)
            · intro x hx
              rw [push_worklist, hs.prop_worklist, hs.cp_worklist] at hx
              rcases List.mem_cons.mp hx with rfl | hx
              · exact haP
              · exact jwlP x hx
            · intro m
              rw [hs.push_near, hs.prop_near]
              show (fun m2 => if m2 = a then
                near (h.can_propagate t nid a).2 a ∪ far (h.can_propagate t nid a).2 nid
                else near (h.can_propagate t nid a).2 m2) m ⊆ near T m
              simp only [hs.cp_near, hs.cp_far]
              by_cases hma : m = a
              · rw [if_pos hma, hma]
                exact Finset.union_subset (jhi a) (jfar.trans (hT2 nid hnidP a ha).1)
              · rw [if_neg hma]
                exact jhi m
            · rw [push_visited, hs.prop_visited, hs.cp_visited]
              exact Finset.insert_subset_iff.mpr ⟨(hT2 nid hnidP a ha).2, jvisT⟩
          | false =>
            rw [if_neg (by simp)]
            refine ⟨?_, ?_, ?_, ?_, ?_⟩
            · intro m
              rw [hs.cp_near]
              exact jlo m
            · rw [hs.cp_visited]
              exact jviso
            · intro x hx
              rw [hs.cp_worklist] at hx
              exact jwlP x hx
            · intro m
              rw [hs.cp_near]
              exact jhi m
            · rw [hs.cp_visited]
              exact jvisT
        · rw [if_neg hv]
          have haT : a ∈ T.visited := (hT2 nid hnidP a ha).2
          have haP : a ∈ P := by
            rcases hT6 a haT with hy | hy
            · exact absurd (jviso hy) hv
            · exact hy
          refine ⟨?_, ?_, ?_, ?_, ?_⟩
          · intro m
            rw [hs.push_near, hs.prop_near]
            refine (jlo m).trans ?_
            show near t m ⊆ (if m = a then near t a ∪ far t nid else near t m)
            by_cases hma : m = a
            · rw [if_pos hma, hma]
              exact Finset.subset_union_left
            · rw [if_neg hma]
          · rw [push_visited, hs.prop_visited]
            exact jviso.trans (Finset.subset_insert a _)
          · intro x hx
            rw [push_worklist, hs.prop_worklist] at hx
            rcases List.mem_cons.mp hx with rfl | hx
            · exact haP
            · exact jwlP x hx
          · intro m
            rw [hs.push_near, hs.prop_near]
            show (if m = a then near t a ∪ far t nid else near t m) ⊆ near T m
            by_cases hma : m = a
            · rw [if_pos hma, hma]
              exact Finset.union_subset (jhi a) (jfar.trans (hT2 nid hnidP a ha).1)
            · rw [if_neg hma]
              exact jhi m
          · rw [push_visited, hs.prop_visited]
            exact Finset.insert_subset_iff.mpr ⟨haT, jvisT⟩
      · have := (mono_process_child hs nid t a).2 nid
        rw [this]
        exact jfar
    · constructor
      · refine ⟨?_, ?_, ?_, ?_, ?_⟩
        · intro m
          rw [hnear1]
          exact hlo m
        · rw [hs.afe_visited]
          exact hviso
        · intro x hx
          rw [hs.afe_worklist] at hx
          refine hwlP x ?_
          rw [hw]
          rcases List.mem_append.mp hx with hx | hx
          · exact List.mem_append_left _ hx
          · exact List.mem_append_right _ (List.mem_cons_of_mem _ hx)
        · intro m
          rw [hnear1]
          exact hhi m
        · rw [hs.afe_visited]
          exact hvisT
      · rw [hfar1, hT1 nid hnidP]
        exact Finset.union_subset_union_right
          (Finset.sdiff_subset_sdiff (hhi nid) (le_refl _))

theorem sim_drain
    (hs : HookSpec h near far nearK farK gen kill) (σ T : DFState) (P : Finset Nat)
    (hT1 : ∀ m ∈ P, far T m = gen m ∪ (near T m \ kill m))
    (hT2 : ∀ m ∈ P, ∀ c ∈ h.next_nodes m, far T m ⊆ near T c ∧ c ∈ T.visited)
    (hT3 : ∀ m, m ∉ P → near T m = near σ m)
    (hT6 : ∀ y ∈ T.visited, y ∈ σ.visited ∨ y ∈ P)
    {u t : DFState} {PA : Finset Nat}
    (htr : DrainT h u t PA) (hsim : SimInv near σ T P u) :
    SimInv near σ T P t ∧ ∀ x ∈ PA, x ∈ P := by
  induction htr with
  | refl s => exact ⟨hsim, fun x hx => absurd hx (Finset.not_mem_empty x)⟩
  | step s t PA l1 l2 nid hw htr ih =>
    have hstep : SimInv near σ T P (process_node h { s with worklist := l1 ++ l2 } nid) :=
      simInv_popstep hs σ T P hT1 hT2 hT3 hT6 (PopStep.pop s l1 l2 nid hw) hsim
    obtain ⟨h1, h2⟩ := ih hstep
    refine ⟨h1, fun x hx => ?_⟩
    rcases Finset.mem_insert.mp hx with hx0 | hx
    · rw [hx0]
      exact hsim.2.2.1 nid
        (by rw [hw]; exact List.mem_append_right _ (List.mem_cons_self _ _))
    · exact h2 x hx

/-- Core order-independence: two drains with arbitrary pop schedules from
states agreeing on the maps, visited set and worklist reach terminal states
with identical near/far maps and visited sets. -/
theorem drain_unique
    (hs : HookSpec h near far nearK farK gen kill)
    {σ1 σ2 TA TB : DFState} {PA PB : Finset Nat}
    (hnear : ∀ m, near σ1 m = near σ2 m) (hfar : ∀ m, far σ1 m = far σ2 m)
    (hvis : σ1.visited = σ2.visited) (hwl : σ1.worklist = σ2.worklist)
    (hwv1 : WlVis σ1) (hfix1 : FixInv near far gen kill σ1)
    (htrA : DrainT h σ1 TA PA) (hTA : TA.worklist = [])
    (htrB : DrainT h σ2 TB PB) (hTB : TB.worklist = []) :
    (∀ m, near TA m = near TB m) ∧ (∀ m, far TA m = far TB m) ∧
    TA.visited = TB.visited := by
  have hwv2 : WlVis σ2 := by
    intro x hx
    rw [← hvis]
    exact hwv1 x (by rw [hwl]; exact hx)
  have hfix2 : FixInv near far gen kill σ2 := by
    intro m hm
    rw [← hvis] at hm
    rcases hfix1 m hm with hq | hq
    · exact Or.inl (by rw [← hwl]; exact hq)
    · exact Or.inr (by rw [← hnear m, ← hfar m]; exact hq)
  have hfixTA := trace_fixinv hs htrA hfix1
  have hfixTB := trace_fixinv hs htrB hfix2
  have hcharA := trace_vis_char hs htrA hTA hwv1
  have hcharB := trace_vis_char hs htrB hTB hwv2
  have hT1A : ∀ m ∈ PA, far TA m = gen m ∪ (near TA m \ kill m) := by
    intro m hm
    rcases hfixTA m (hcharA.2 m hm) with hq | hq
    · rw [hTA] at hq
      cases hq
    · exact hq
  have hT1B : ∀ m ∈ PB, far TB m = gen m ∪ (near TB m \ kill m) := by
    intro m hm
    rcases hfixTB m (hcharB.2 m hm) with hq | hq
    · rw [hTB] at hq
      cases hq
    · exact hq
  have hT2A := trace_edge hs htrA hTA
  have hT2B := trace_edge hs htrB hTB
  have hsimA0 : SimInv near σ1 TB PB σ1 := by
    refine ⟨fun m => subset_rfl, subset_rfl, ?_, ?_, ?_⟩
    · intro x hx
      exact trace_wl_popped hs htrB hTB x (by rw [← hwl]; exact hx)
    · intro m
      rw [hnear m]
      exact trace_near_mono hs htrB m
    · rw [hvis]
      exact trace_vis_mono hs htrB
  have hsimA := sim_drain hs σ1 TB PB hT1B hT2B
    (fun m hm => by rw [trace_near_stable hs htrB hTB m hm, hnear m])
    (fun y hy => by
      rcases hcharB.1 y hy with h0 | h0
      · exact Or.inl (by rw [hvis]; exact h0)
      · exact Or.inr h0)
    htrA hsimA0
  have hsimB0 : SimInv near σ2 TA PA σ2 := by
    refine ⟨fun m => subset_rfl, subset_rfl, ?_, ?_, ?_⟩
    · intro x hx
      exact trace_wl_popped hs htrA hTA x (by rw [hwl]; exact hx)
    · intro m
      rw [← hnear m]
      exact trace_near_mono hs htrA m
    · rw [← hvis]
      exact trace_vis_mono hs htrA
  have hsimB := sim_drain hs σ2 TA PA hT1A hT2A
    (fun m hm => by rw [trace_near_stable hs htrA hTA m hm, hnear m])
    (fun y hy => by
      rcases hcharA.1 y hy with h0 | h0
      · exact Or.inl (by rw [← hvis]; exact h0)
      · exact Or.inr h0)
    htrB hsimB0
  have hne : ∀ m, near TA m = near TB m := fun m =>
    Finset.Subset.antisymm (hsimA.1.2.2.2.1 m) (hsimB.1.2.2.2.1 m)
  refine ⟨hne, ?_, Finset.Subset.antisymm hsimA.1.2.2.2.2 hsimB.1.2.2.2.2⟩
  intro m
  by_cases hm : m ∈ PA
  · rw [hT1A m hm, hT1B m (hsimA.2 m hm), hne m]
  · have hm2 : m ∉ PB := fun hc => hm (hsimB.2 m hc)
    rw [trace_far_stable hs htrA m hm, trace_far_stable hs htrB m hm2, hfar m]

end OrderIndependence

section RunUnique

variable {h : DFHooks} {near far : DFState → Nat → Finset Nat}
variable {nearK farK : DFState → Finset Nat} {gen kill : Nat → Finset Nat}
variable {seedFn : DFState → Nat → DFState}

theorem run_unique
    (hs : HookSpec h near far nearK farK gen kill)
    (ss : SeedSpec seedFn near far nearK farK) :
    ∀ {bs : List Nat} {s1 s2 t1 t2 : DFState},
      RunRel h seedFn bs s1 t1 → RunRel h seedFn bs s2 t2 →
      (∀ m, near s1 m = near s2 m) → (∀ m, far s1 m = far s2 m) →
      s1.visited = s2.visited → s1.worklist = s2.worklist →
      WlVis s1 → FixInv near far gen kill s1 →
      (∀ m, near t1 m = near t2 m) ∧ (∀ m, far t1 m = far t2 m) ∧
      t1.visited = t2.visited := by
  intro bs
  induction bs with
  | nil =>
    intro s1 s2 t1 t2 hr1 hr2 hnear hfar hvis hwl _ _
    cases hr1
    cases hr2
    exact ⟨hnear, hfar, hvis⟩
  | cons b bs ih =>
    intro s1 s2 t1 t2 hr1 hr2 hnear hfar hvis hwl hwv1 hfix1
    cases hr1 with
    | cons _ _ _ tmid1 _ P1 hdr1 hTw1 hrest1 =>
      cases hr2 with
      | cons _ _ _ tmid2 _ P2 hdr2 hTw2 hrest2 =>
        have hnearS : ∀ m, near (seedFn s1 b) m = near (seedFn s2 b) m := by
          intro m
          rw [ss.near_eq, ss.near_eq]
          show (if m = b then ∅ else near s1 m) = (if m = b then ∅ else near s2 m)
          by_cases hmb : m = b
          · rw [if_pos hmb, if_pos hmb]
          · rw [if_neg hmb, if_neg hmb, hnear m]
        have hfarS : ∀ m, far (seedFn s1 b) m = far (seedFn s2 b) m := by
          intro m
          rw [ss.far_eq, ss.far_eq, hfar m]
        have hvisS : (seedFn s1 b).visited = (seedFn s2 b).visited := by
          rw [ss.visited_eq, ss.visited_eq, hvis]
        have hwlS : (seedFn s1 b).worklist = (seedFn s2 b).worklist := by
          rw [ss.worklist_eq, ss.worklist_eq, hwl]
        have hwvS : WlVis (seedFn s1 b) := by
          intro x hx
          rw [ss.worklist_eq] at hx
          rw [ss.visited_eq]
          rcases List.mem_cons.mp hx with rfl | hx
          · exact Finset.mem_insert_self _ _
          · exact Finset.mem_insert_of_mem (hwv1 x hx)
        have hfixS : FixInv near far gen kill (seedFn s1 b) :=
          fixinv_seed ss s1 b hfix1
        have hmid := drain_unique hs hnearS hfarS hvisS hwlS hwvS hfixS
          hdr1 hTw1 hdr2 hTw2
        have hwv_mid : WlVis tmid1 := trace_wlvis hs hdr1 hwvS
        have hfix_mid : FixInv near far gen kill tmid1 := trace_fixinv hs hdr1 hfixS
        exact ih hrest1 hrest2 hmid.1 hmid.2.1 hmid.2.2
          (by rw [hTw1, hTw2]) hwv_mid hfix_mid

theorem drainT_of_fuel (h : DFHooks) :
    ∀ (fuel : Nat) (s : DFState), (drain h fuel s).worklist = [] →
      ∃ P, DrainT h s (drain h fuel s) P := by
  intro fuel
  induction fuel with
  | zero => exact fun s _ => ⟨∅, DrainT.refl s⟩
  | succ fuel ih =>
    intro s hw
    cases hwl : s.worklist with
    | nil =>
      rw [drain_nil h _ s hwl]
      exact ⟨∅, DrainT.refl s⟩
    | cons nid rest =>
      rw [drain_cons h fuel s nid rest hwl] at hw ⊢
      obtain ⟨P, hP⟩ := ih _ hw
      exact ⟨insert nid P, DrainT.step s _ P [] rest nid (by rw [hwl]; rfl) hP⟩

theorem runRel_of_run_loop (h : DFHooks) (seedFn2 : DFState → Nat → DFState) :
    ∀ (bs : List Nat) (s : DFState) (f : Nat),
      (∀ bs1 bs2, bs = bs1 ++ bs2 → (run_loop h seedFn2 bs1 f s).worklist = []) →
      RunRel h seedFn2 bs s (run_loop h seedFn2 bs f s) := by
  intro bs
  induction bs with
  | nil => exact fun s f _ => RunRel.nil s
  | cons b bs ih =>
    intro s f hp
    have hempty : (drain h f (seedFn2 s b)).worklist = [] := hp [b] bs rfl
    obtain ⟨P, hP⟩ := drainT_of_fuel h f (seedFn2 s b) hempty
    refine RunRel.cons b bs s _ _ P hP hempty ?_
    exact ih (drain h f (seedFn2 s b)) f
      (fun bs1 bs2 hsplit => hp (b :: bs1) bs2 (by rw [hsplit]; rfl))

end RunUnique

theorem yield_all_defs_subset (cfg : CFG) {n : Nat} (hn : n ∈ yield_all_defs cfg) :
    n ∈ cfg.node_ids :=
  (List.mem_filter.mp ((List.mem_filter.mp hn).1)).1

theorem yield_all_refs_subset (cfg : CFG) {n : Nat} (hn : n ∈ yield_all_refs cfg) :
    n ∈ cfg.node_ids :=
  (List.mem_filter.mp ((List.mem_filter.mp hn).1)).1

theorem prd_gen_subset (cfg : CFG) (n : Nat) :
    PossiblyReachingDefinitions.build_gen cfg n ⊆ cfg.node_ids.toFinset := by
  unfold PossiblyReachingDefinitions.build_gen
  by_cases hn : n ∈ yield_all_defs cfg
  · rw [if_pos hn]
    exact Finset.singleton_subset_iff.mpr (List.mem_toFinset.mpr (yield_all_defs_subset cfg hn))
  · rw [if_neg hn]
    exact Finset.empty_subset _

theorem prr_gen_subset (cfg : CFG) (n : Nat) :
    PossibleReachableReferences.build_gen cfg n ⊆ cfg.node_ids.toFinset := by
  unfold PossibleReachableReferences.build_gen
  by_cases hn : n ∈ yield_all_refs cfg
  · rw [if_pos hn]
    exact Finset.singleton_subset_iff.mpr (List.mem_toFinset.mpr (yield_all_refs_subset cfg hn))
  · rw [if_neg hn]
    exact Finset.empty_subset _

theorem vinv_initState {near far : DFState → Nat → Finset Nat}
    (V : Finset Nat)
    (hn : ∀ n, near initState n = ∅) (hf : ∀ n, far initState n = ∅) :
    Vinv V near far initState := by
  refine ⟨fun x hx => absurd hx (List.not_mem_nil x), fun n => ?_, fun n => ?_⟩
  · rw [hn n]
    exact Finset.empty_subset _
  · rw [hf n]
    exact Finset.empty_subset _

/-- Claim C4: on any CFG whose control-flow edges stay inside the node-id
universe (the finiteness hypothesis), each analysis stabilizes: there is a
fuel bound past which the run no longer changes and its worklist has
emptied — the worklist loop performs finitely many pops even on cyclic
CFGs. -/
theorem claim_C4 (cfg : CFG)
    (Hfwd : ∀ x ∈ cfg.node_ids, ∀ m ∈ cfg.get_any_children x, m ∈ cfg.node_ids)
    (Hbwd : ∀ x ∈ cfg.node_ids, ∀ m ∈ cfg.get_any_parents x, m ∈ cfg.node_ids) :
    (∃ fuel0, ∀ f, fuel0 ≤ f →
      PossiblyReachingDefinitions.call cfg f = PossiblyReachingDefinitions.call cfg fuel0 ∧
      (PossiblyReachingDefinitions.call cfg f).worklist = []) ∧
    (∃ fuel0, ∀ f, fuel0 ≤ f →
      PossibleReachableReferences.call cfg f = PossibleReachableReferences.call cfg fuel0 ∧
      (PossibleReachableReferences.call cfg f).worklist = []) := by
  constructor
  · obtain ⟨fuel0, hf⟩ := run_loop_master (prd_hookSpec cfg) prd_seedSpec
      cfg.node_ids.toFinset
      (fun x hx m hm => List.mem_toFinset.mpr
        (Hfwd x (List.mem_toFinset.mp hx) m hm))
      (prd_gen_subset cfg)
      (PossiblyReachingDefinitions.get_entry_node cfg) initState
      (fun b hb => List.mem_toFinset.mpr ((List.mem_filter.mp hb).1))
      (vinv_initState _ (fun _ => rfl) (fun _ => rfl)) rfl
    exact ⟨fuel0, fun f hff =>
      ⟨(hf f hff _ [] (List.append_nil _).symm).1,
       (hf f hff _ [] (List.append_nil _).symm).2.1⟩⟩
  · obtain ⟨fuel0, hf⟩ := run_loop_master (prr_hookSpec cfg) prr_seedSpec
      cfg.node_ids.toFinset
      (fun x hx m hm => List.mem_toFinset.mpr
        (Hbwd x (List.mem_toFinset.mp hx) m hm))
      (prr_gen_subset cfg)
      (PossibleReachableReferences.get_exit_node cfg) initState
      (fun b hb => List.mem_toFinset.mpr ((List.mem_filter.mp hb).1))
      (vinv_initState _ (fun _ => rfl) (fun _ => rfl)) rfl
    exact ⟨fuel0, fun f hff =>
      ⟨(hf f hff _ [] (List.append_nil _).symm).1,
       (hf f hff _ [] (List.append_nil _).symm).2.1⟩⟩

/-- Claim C10: with enough fuel (as the Python run always has, by
termination), the engine treats multiple boundary nodes one at a time: for
each split `boundary = bs1 ++ b :: bs2`, the run reaches the state after the
`bs1` drains with an empty worklist, then seeding `b` makes its near-slot
exactly `∅` (overwriting anything propagated there before), marks `b`
visited, and leaves `[b]` as the whole worklist; the run then equals a full
drain followed by the remaining seeds `bs2`. -/
theorem claim_C10 (cfg : CFG)
    (Hfwd : ∀ x ∈ cfg.node_ids, ∀ m ∈ cfg.get_any_children x, m ∈ cfg.node_ids)
    (Hbwd : ∀ x ∈ cfg.node_ids, ∀ m ∈ cfg.get_any_parents x, m ∈ cfg.node_ids) :
    (∃ fuel0, ∀ f, fuel0 ≤ f → ∀ bs1 b bs2,
      PossiblyReachingDefinitions.get_entry_node cfg = bs1 ++ b :: bs2 →
      (run_loop (PossiblyReachingDefinitions.hooks cfg)
        PossiblyReachingDefinitions.pre_loop_init bs1 f initState).worklist = [] ∧
      (PossiblyReachingDefinitions.pre_loop_init
        (run_loop (PossiblyReachingDefinitions.hooks cfg)
          PossiblyReachingDefinitions.pre_loop_init bs1 f initState) b).in_dict b = ∅ ∧
      b ∈ (PossiblyReachingDefinitions.pre_loop_init
        (run_loop (PossiblyReachingDefinitions.hooks cfg)
          PossiblyReachingDefinitions.pre_loop_init bs1 f initState) b).visited ∧
      (PossiblyReachingDefinitions.pre_loop_init
        (run_loop (PossiblyReachingDefinitions.hooks cfg)
          PossiblyReachingDefinitions.pre_loop_init bs1 f initState) b).worklist = [b] ∧
      PossiblyReachingDefinitions.call cfg f =
        run_loop (PossiblyReachingDefinitions.hooks cfg)
          PossiblyReachingDefinitions.pre_loop_init bs2 f
          (drain (PossiblyReachingDefinitions.hooks cfg) f
            (PossiblyReachingDefinitions.pre_loop_init
              (run_loop (PossiblyReachingDefinitions.hooks cfg)
                PossiblyReachingDefinitions.pre_loop_init bs1 f initState) b))) ∧
    (∃ fuel0, ∀ f, fuel0 ≤ f → ∀ bs1 b bs2,
      PossibleReachableReferences.get_exit_node cfg = bs1 ++ b :: bs2 →
      (run_loop (PossibleReachableReferences.hooks cfg)
        PossibleReachableReferences.pre_loop_init bs1 f initState).worklist = [] ∧
      (PossibleReachableReferences.pre_loop_init
        (run_loop (PossibleReachableReferences.hooks cfg)
          PossibleReachableReferences.pre_loop_init bs1 f initState) b).out_dict b = ∅ ∧
      b ∈ (PossibleReachableReferences.pre_loop_init
        (run_loop (PossibleReachableReferences.hooks cfg)
          PossibleReachableReferences.pre_loop_init bs1 f initState) b).visited ∧
      (PossibleReachableReferences.pre_loop_init
        (run_loop (PossibleReachableReferences.hooks cfg)
          PossibleReachableReferences.pre_loop_init bs1 f initState) b).worklist = [b] ∧
      PossibleReachableReferences.call cfg f =
        run_loop (PossibleReachableReferences.hooks cfg)
          PossibleReachableReferences.pre_loop_init bs2 f
          (drain (PossibleReachableReferences.hooks cfg) f
            (PossibleReachableReferences.pre_loop_init
              (run_loop (PossibleReachableReferences.hooks cfg)
                PossibleReachableReferences.pre_loop_init bs1 f initState) b))) := by
  constructor
  · obtain ⟨fuel0, hf⟩ := run_loop_master (prd_hookSpec cfg) prd_seedSpec
      cfg.node_ids.toFinset
      (fun x hx m hm => List.mem_toFinset.mpr
        (Hfwd x (List.mem_toFinset.mp hx) m hm))
      (prd_gen_subset cfg)
      (PossiblyReachingDefinitions.get_entry_node cfg) initState
      (fun b hb => List.mem_toFinset.mpr ((List.mem_filter.mp hb).1))
      (vinv_initState _ (fun _ => rfl) (fun _ => rfl)) rfl
    refine ⟨fuel0, fun f hff bs1 b bs2 hsplit => ?_⟩
    have hpre := hf f hff bs1 (b :: bs2) hsplit
    refine ⟨hpre.2.1, by simp [PossiblyReachingDefinitions.pre_loop_init],
      Finset.mem_insert_self _ _, ?_, ?_⟩
    · show b :: (run_loop (PossiblyReachingDefinitions.hooks cfg)
        PossiblyReachingDefinitions.pre_loop_init bs1 f initState).worklist = [b]
      rw [hpre.2.1]
    · show run_loop (PossiblyReachingDefinitions.hooks cfg)
        PossiblyReachingDefinitions.pre_loop_init
        (PossiblyReachingDefinitions.get_entry_node cfg) f initState = _
      rw [hsplit, run_loop_append]
      rfl
  · obtain ⟨fuel0, hf⟩ := run_loop_master (prr_hookSpec cfg) prr_seedSpec
      cfg.node_ids.toFinset
      (fun x hx m hm => List.mem_toFinset.mpr
        (Hbwd x (List.mem_toFinset.mp hx) m hm))
      (prr_gen_subset cfg)
      (PossibleReachableReferences.get_exit_node cfg) initState
      (fun b hb => List.mem_toFinset.mpr ((List.mem_filter.mp hb).1))
      (vinv_initState _ (fun _ => rfl) (fun _ => rfl)) rfl
    refine ⟨fuel0, fun f hff bs1 b bs2 hsplit => ?_⟩
    have hpre := hf f hff bs1 (b :: bs2) hsplit
    refine ⟨hpre.2.1, by simp [PossibleReachableReferences.pre_loop_init],
      Finset.mem_insert_self _ _, ?_, ?_⟩
    · show b :: (run_loop (PossibleReachableReferences.hooks cfg)
        PossibleReachableReferences.pre_loop_init bs1 f initState).worklist = [b]
      rw [hpre.2.1]
    · show run_loop (PossibleReachableReferences.hooks cfg)
        PossibleReachableReferences.pre_loop_init
        (PossibleReachableReferences.get_exit_node cfg) f initState = _
      rw [hsplit, run_loop_append]
      rfl

/-- Witness for claim C10 at `cfgA`, whose forward boundary list `[1, 2]`
has two entries; the two analyses satisfy the seeding protocol. -/
theorem claim_C10_witness :
    (∃ fuel0, ∀ f, fuel0 ≤ f → ∀ bs1 b bs2,
      PossiblyReachingDefinitions.get_entry_node cfgA = bs1 ++ b :: bs2 →
      (run_loop (PossiblyReachingDefinitions.hooks cfgA)
        PossiblyReachingDefinitions.pre_loop_init bs1 f initState).worklist = [] ∧
      (PossiblyReachingDefinitions.pre_loop_init
        (run_loop (PossiblyReachingDefinitions.hooks cfgA)
          PossiblyReachingDefinitions.pre_loop_init bs1 f initState) b).in_dict b = ∅ ∧
      b ∈ (PossiblyReachingDefinitions.pre_loop_init
        (run_loop (PossiblyReachingDefinitions.hooks cfgA)
          PossiblyReachingDefinitions.pre_loop_init bs1 f initState) b).visited ∧
      (PossiblyReachingDefinitions.pre_loop_init
        (run_loop (PossiblyReachingDefinitions.hooks cfgA)
          PossiblyReachingDefinitions.pre_loop_init bs1 f initState) b).worklist = [b] ∧
      PossiblyReachingDefinitions.call cfgA f =
        run_loop (PossiblyReachingDefinitions.hooks cfgA)
          PossiblyReachingDefinitions.pre_loop_init bs2 f
          (drain (PossiblyReachingDefinitions.hooks cfgA) f
            (PossiblyReachingDefinitions.pre_loop_init
              (run_loop (PossiblyReachingDefinitions.hooks cfgA)
                PossiblyReachingDefinitions.pre_loop_init bs1 f initState) b))) :=
  (claim_C10 cfgA (by decide) (by decide)).1

/-- Claim C8: permuting the pop order of the worklist never changes the
final maps.  For each concrete analysis: any two completed runs with
arbitrary pop schedules (`RunRel` pops from an arbitrary worklist position,
covering FIFO, LIFO and every other order) produce identical final `in` and
`out` maps; and the implemented LIFO run is one such schedule (for any
sufficiently large fuel, as the Python run by termination always has). -/
theorem claim_C8 (cfg : CFG)
    (Hfwd : ∀ x ∈ cfg.node_ids, ∀ m ∈ cfg.get_any_children x, m ∈ cfg.node_ids)
    (Hbwd : ∀ x ∈ cfg.node_ids, ∀ m ∈ cfg.get_any_parents x, m ∈ cfg.node_ids) :
    ((∀ t1 t2 : DFState,
        RunRel (PossiblyReachingDefinitions.hooks cfg)
          PossiblyReachingDefinitions.pre_loop_init
          (PossiblyReachingDefinitions.get_entry_node cfg) initState t1 →
        RunRel (PossiblyReachingDefinitions.hooks cfg)
          PossiblyReachingDefinitions.pre_loop_init
          (PossiblyReachingDefinitions.get_entry_node cfg) initState t2 →
        (∀ n, t1.in_dict n = t2.in_dict n) ∧ (∀ n, t1.out_dict n = t2.out_dict n)) ∧
      (∃ fuel0, ∀ f, fuel0 ≤ f →
        RunRel (PossiblyReachingDefinitions.hooks cfg)
          PossiblyReachingDefinitions.pre_loop_init
          (PossiblyReachingDefinitions.get_entry_node cfg) initState
          (PossiblyReachingDefinitions.call cfg f))) ∧
    ((∀ t1 t2 : DFState,
        RunRel (PossibleReachableReferences.hooks cfg)
          PossibleReachableReferences.pre_loop_init
          (PossibleReachableReferences.get_exit_node cfg) initState t1 →
        RunRel (PossibleReachableReferences.hooks cfg)
          PossibleReachableReferences.pre_loop_init
          (PossibleReachableReferences.get_exit_node cfg) initState t2 →
        (∀ n, t1.in_dict n = t2.in_dict n) ∧ (∀ n, t1.out_dict n = t2.out_dict n)) ∧
      (∃ fuel0, ∀ f, fuel0 ≤ f →
        RunRel (PossibleReachableReferences.hooks cfg)
          PossibleReachableReferences.pre_loop_init
          (PossibleReachableReferences.get_exit_node cfg) initState
          (PossibleReachableReferences.call cfg f))) := by
  constructor
  · constructor
    · intro t1 t2 h1 h2
      have hu := run_unique (prd_hookSpec cfg) prd_seedSpec h1 h2
        (fun m => rfl) (fun m => rfl) rfl rfl
        (fun x hx => absurd hx (List.not_mem_nil x)) fixinv_initState
      exact ⟨hu.1, hu.2.1⟩
    · obtain ⟨fuel0, hf⟩ := run_loop_master (prd_hookSpec cfg) prd_seedSpec
        cfg.node_ids.toFinset
        (fun x hx m hm => List.mem_toFinset.mpr
          (Hfwd x (List.mem_toFinset.mp hx) m hm))
        (prd_gen_subset cfg)
        (PossiblyReachingDefinitions.get_entry_node cfg) initState
        (fun b hb => List.mem_toFinset.mpr ((List.mem_filter.mp hb).1))
        (vinv_initState _ (fun _ => rfl) (fun _ => rfl)) rfl
      exact ⟨fuel0, fun f hff => runRel_of_run_loop _ _ _ initState f
        (fun bs1 bs2 hsplit => (hf f hff bs1 bs2 hsplit).2.1)⟩
  · constructor
    · intro t1 t2 h1 h2
      have hu := run_unique (prr_hookSpec cfg) prr_seedSpec h1 h2
        (fun m => rfl) (fun m => rfl) rfl rfl
        (fun x hx => absurd hx (List.not_mem_nil x)) fixinv_initState
      exact ⟨hu.2.1, hu.1⟩
    · obtain ⟨fuel0, hf⟩ := run_loop_master (prr_hookSpec cfg) prr_seedSpec
        cfg.node_ids.toFinset
        (fun x hx m hm => List.mem_toFinset.mpr
          (Hbwd x (List.mem_toFinset.mp hx) m hm))
        (prr_gen_subset cfg)
        (PossibleReachableReferences.get_exit_node cfg) initState
        (fun b hb => List.mem_toFinset.mpr ((List.mem_filter.mp hb).1))
        (vinv_initState _ (fun _ => rfl) (fun _ => rfl)) rfl
      exact ⟨fuel0, fun f hff => runRel_of_run_loop _ _ _ initState f
        (fun bs1 bs2 hsplit => (hf f hff bs1 bs2 hsplit).2.1)⟩

/-- Witness for claim C8 at the concrete `cfgA`. -/
theorem claim_C8_witness :
    ((∀ t1 t2 : DFState,
        RunRel (PossiblyReachingDefinitions.hooks cfgA)
          PossiblyReachingDefinitions.pre_loop_init
          (PossiblyReachingDefinitions.get_entry_node cfgA) initState t1 →
        RunRel (PossiblyReachingDefinitions.hooks cfgA)
          PossiblyReachingDefinitions.pre_loop_init
          (PossiblyReachingDefinitions.get_entry_node cfgA) initState t2 →
        (∀ n, t1.in_dict n = t2.in_dict n) ∧ (∀ n, t1.out_dict n = t2.out_dict n)) ∧
      (∃ fuel0, ∀ f, fuel0 ≤ f →
        RunRel (PossiblyReachingDefinitions.hooks cfgA)
          PossiblyReachingDefinitions.pre_loop_init
          (PossiblyReachingDefinitions.get_entry_node cfgA) initState
          (PossiblyReachingDefinitions.call cfgA f))) ∧
    ((∀ t1 t2 : DFState,
        RunRel (PossibleReachableReferences.hooks cfgA)
          PossibleReachableReferences.pre_loop_init
          (PossibleReachableReferences.get_exit_node cfgA) initState t1 →
        RunRel (PossibleReachableReferences.hooks cfgA)
          PossibleReachableReferences.pre_loop_init
          (PossibleReachableReferences.get_exit_node cfgA) initState t2 →
        (∀ n, t1.in_dict n = t2.in_dict n) ∧ (∀ n, t1.out_dict n = t2.out_dict n)) ∧
      (∃ fuel0, ∀ f, fuel0 ≤ f →
        RunRel (PossibleReachableReferences.hooks cfgA)
          PossibleReachableReferences.pre_loop_init
          (PossibleReachableReferences.get_exit_node cfgA) initState
          (PossibleReachableReferences.call cfgA f))) :=
  claim_C8 cfgA (by decide) (by decide)

/-- Witness for claim C4 at the concrete cyclic-free `cfgA` (edges
`1 → 3 → 2` inside the node set). -/
theorem claim_C4_witness :
    (∃ fuel0, ∀ f, fuel0 ≤ f →
      PossiblyReachingDefinitions.call cfgA f = PossiblyReachingDefinitions.call cfgA fuel0 ∧
      (PossiblyReachingDefinitions.call cfgA f).worklist = []) ∧
    (∃ fuel0, ∀ f, fuel0 ≤ f →
      PossibleReachableReferences.call cfgA f = PossibleReachableReferences.call cfgA fuel0 ∧
      (PossibleReachableReferences.call cfgA f).worklist = []) :=
  claim_C4 cfgA (by decide) (by decide)
